import Mathlib

/-!
Basic-File-Server: request-handling core of `src/main.c`

A shallow embedding of the arena allocator, the `string8` view operations, the
string builder, the request-line parser, the content-type classifier and the
response assembly of `main`, followed by theorems about them.

Conventions of the embedding

* A byte (`char`, `u8`) is a natural number; every byte the program itself
  produces is below 256.
* A `char *` is represented by the bytes stored from the pointed-to address
  onwards: `p + 1` is `List.tail`, `*p` is the head, `p[i]` is the `i`-th
  element.  The null pointer is the empty list.  A `string8` keeps its two C
  fields, `data` and `length`; the bytes the view denotes are the first `length`
  bytes of `data` (`string8.bytes`), and `data` may continue past them, exactly
  as memory does behind a C view.
* `u32` / `u64` arithmetic is written with an explicit modulus wherever a sum
  of independent quantities is formed.  A counter that only counts bytes of one
  view is bounded by the `u32` length of that view and is left unreduced.
* The fatal `assert` of the arena is the `none` result of `Option`.
* Loops are structural recursions on an explicit iteration budget that is
  computed from the variant of the loop.
-/

namespace BasicFileServer

/-! ## Data model -/

/-- View over bytes: the C struct `string8 { char *data; u32 length; }`. -/
structure string8 where
  data : List Nat
  length : Nat
  deriving DecidableEq

/-- The bytes a view denotes: the first `length` bytes reachable from `data`. -/
def string8.bytes (s : string8) : List Nat := s.data.take s.length

/-- A view is well formed when its `length` bytes really are there. -/
def string8.wf (s : string8) : Prop := s.length ≤ s.data.length

instance (s : string8) : Decidable s.wf := by
  unfold string8.wf
  exact inferInstance

/-- The bytes of a C string literal, without its terminator.  Every literal of
the program is ASCII, so each character is one byte. -/
def literal_bytes (str : String) : List Nat := str.toList.map Char.toNat

/-- Macro `string8_static(str)`: `(string8){ str, len(str) - 1 }`.  The array of
a C literal carries a terminating zero byte, which `len(str) - 1` leaves out of
the view. -/
def string8_static (str : String) : string8 :=
  { data := literal_bytes str ++ [0], length := (literal_bytes str ++ [0]).length - 1 }

/-- A view over exactly the bytes `l` (a buffer holding `l` and nothing more). -/
def string8.of_bytes (l : List Nat) : string8 := { data := l, length := l.length }

/-- Function `null_string`: `(string8){0}`. -/
def null_string : string8 := { data := [], length := 0 }

/-! ## String view operations -/

/-- Function `string8_pop_char`: returns the popped byte and the advanced view. -/
def string8_pop_char (s : string8) : Nat × string8 :=
  if s.length = 0 then (0, s)
  else (s.data.headD 0, { data := s.data.tail, length := s.length - 1 })

/-- Function `string8_safe_peek`. -/
def string8_safe_peek (s : string8) : Nat :=
  if s.length = 0 then 0 else s.data.headD 0

/-- The `for` loop of `string8_pop_expected_string`: `n` iterations remain and
the loop counter is `i`. -/
def string8_pop_expected_string_loop (expected : string8) : Nat → Nat → string8 → string8
  | 0, _, s => s
  | n + 1, i, s =>
    let expected_char := expected.data.getD i 0
    let popped := string8_pop_char s
    let actual_char := popped.1
    let s1 := popped.2
    let s2 := if expected_char ≠ actual_char then null_string else s1
    string8_pop_expected_string_loop expected n (i + 1) s2

/-- Function `string8_pop_expected_string`: the view after the call. -/
def string8_pop_expected_string (s expected : string8) : string8 :=
  if s.length < expected.length then null_string
  else string8_pop_expected_string_loop expected expected.length 0 s

/-- Function `string8_pop_expected_char`: the view after the call. -/
def string8_pop_expected_char (s : string8) (expected : Nat) : string8 :=
  let popped := string8_pop_char s
  if expected ≠ popped.1 then null_string else popped.2

/-- State of the `while` loop of `string8_pop_and_collect_string`. -/
structure collect_state where
  result : string8
  s : string8
  c : Nat
  deriving DecidableEq

/-- The `while (c != 0 && c != string_terminator)` loop.  Every iteration pops
one byte of a non-empty view, so `s.length` iterations are enough; the first
argument is that budget. -/
def string8_pop_and_collect_string_loop (string_terminator : Nat) :
    Nat → collect_state → collect_state
  | 0, st => st
  | fuel + 1, st =>
    if st.c ≠ 0 ∧ st.c ≠ string_terminator then
      let result := { st.result with length := st.result.length + 1 }
      let s := (string8_pop_char st.s).2
      string8_pop_and_collect_string_loop string_terminator fuel
        { result := result, s := s, c := string8_safe_peek s }
    else st

/-- Function `string8_pop_and_collect_string`: the returned view and the view
`s` after the call. -/
def string8_pop_and_collect_string (s : string8) (string_terminator : Nat)
    (allow_end_of_string : Bool) : string8 × string8 :=
  if s.length = 0 then (null_string, null_string)
  else
    let result : string8 := { data := s.data, length := 0 }
    let st := string8_pop_and_collect_string_loop string_terminator s.length
      { result := result, s := s, c := string8_safe_peek s }
    if !allow_end_of_string && st.c == 0 then (null_string, null_string)
    else (st.result, st.s)

/-- The `for` loop of `string8_equal_to`: `n` iterations remain, counter `i`. -/
def string8_equal_to_loop (a b : string8) : Nat → Nat → Bool
  | 0, _ => true
  | n + 1, i =>
    let a_char := a.data.getD i 0
    let b_char := b.data.getD i 0
    if a_char ≠ b_char then false else string8_equal_to_loop a b n (i + 1)

/-- Function `string8_equal_to`. -/
def string8_equal_to (a b : string8) : Bool :=
  if a.length ≠ b.length then false
  else string8_equal_to_loop a b b.length 0

/-! ## Request parser -/

/-- Struct `http_request`. -/
structure http_request where
  path : string8
  deriving DecidableEq

/-- Function `parse_http_request`. -/
def parse_http_request (request : string8) : http_request :=
  let request1 := string8_pop_expected_string request (string8_static "GET ")
  let collected := string8_pop_and_collect_string request1 32 false
  let path := collected.1
  let request2 := collected.2
  let _request3 := string8_pop_expected_string request2 (string8_static " HTTP/1.1\r\n")
  { path := path }

/-! ## Content-type classifier -/

/-- Enum `http_content_type`. -/
inductive http_content_type where
  | HTTP_CONTENT_TYPE_DEFAULT
  | HTTP_CONTENT_TYPE_HTML
  | HTTP_CONTENT_TYPE_CSS
  | HTTP_CONTENT_TYPE_JS
  | HTTP_CONTENT_TYPE_WASM
  deriving DecidableEq

open http_content_type

/-- The `while (string8_pop_char(&file_name) == '.')` loop of
`parse_content_type`; it hands back the last `file_extension`.  Every iteration
pops a byte, so `file_name.length + 1` tests of the condition are enough. -/
def parse_content_type_loop : Nat → string8 → string8 → string8
  | 0, _, file_extension => file_extension
  | fuel + 1, file_name, file_extension =>
    let popped := string8_pop_char file_name
    if popped.1 = 46 then
      let collected := string8_pop_and_collect_string popped.2 46 true
      parse_content_type_loop fuel collected.2 collected.1
    else file_extension

/-- Function `parse_content_type`. -/
def parse_content_type (file_name : string8) : http_content_type :=
  let file_name1 := (string8_pop_and_collect_string file_name 46 false).2
  let file_extension :=
    parse_content_type_loop (file_name1.length + 1) file_name1 null_string
  if string8_equal_to file_extension (string8_static "html") then HTTP_CONTENT_TYPE_HTML
  else if string8_equal_to file_extension (string8_static "css") then HTTP_CONTENT_TYPE_CSS
  else if string8_equal_to file_extension (string8_static "js") then HTTP_CONTENT_TYPE_JS
  else if string8_equal_to file_extension (string8_static "wasm") then HTTP_CONTENT_TYPE_WASM
  else HTTP_CONTENT_TYPE_DEFAULT

/-! ## Arena allocator -/

/-- Struct `memory_arena`; `base` is an address, `offset` and `capacity` are
`u64` values. -/
structure memory_arena where
  base : Nat
  offset : Nat
  capacity : Nat
  deriving DecidableEq

/-- What `arena_push_aligned` hands back: the address it returns, which is the
pointer sum `base + offset` of a 64-bit machine, and the bytes at that address
after the `memset`. -/
structure arena_region where
  address : Nat
  bytes : List Nat
  deriving DecidableEq

/-- Function `arena_push_aligned`: `none` is the fatal assertion; otherwise the
returned region and the arena after the call.  The sum `arena->offset + size`
is a `u64` sum, and the pointer sum `(u8 *)arena->base + arena->offset` wraps at
`2 ^ 64` as well.  The parameter `alignment` is not used by the body. -/
def arena_push_aligned (arena : memory_arena) (size : Nat) (_alignment : Nat) :
    Option (arena_region × memory_arena) :=
  if (arena.offset + size) % 2 ^ 64 < arena.capacity then
    some ({ address := (arena.base + arena.offset) % 2 ^ 64, bytes := List.replicate size 0 },
          { arena with offset := (arena.offset + size) % 2 ^ 64 })
  else none

/-- Function `arena_push`. -/
def arena_push (arena : memory_arena) (size : Nat) : Option (arena_region × memory_arena) :=
  arena_push_aligned arena size 16

/-- Function `arena_scratch`; the difference is a `u64` difference. -/
def arena_scratch (arena : memory_arena) : memory_arena :=
  { base := arena.base + arena.offset
    offset := 0
    capacity := (arena.capacity + 2 ^ 64 - arena.offset) % 2 ^ 64 }

/-! ## Decimal formatting -/

/-- The `do ... while (value != 0)` loop of `string8_from_u32` over the 32-byte
`temp_buffer`.  The index `15 - length` is a `u32` expression; a write outside
the array ends the run with `none`.  `value` shrinks in every iteration, so
`value + 1` iterations are enough; the first argument is that budget. -/
def string8_from_u32_digits : Nat → List Nat → Nat → Nat → Option (List Nat × Nat)
  | 0, _, _, _ => none
  | fuel + 1, temp_buffer, value, length =>
    let c := (value % 10 + 48) % 256
    let value1 := value / 10
    let index := (15 + 2 ^ 32 - length) % 2 ^ 32
    if index < 32 then
      let temp_buffer1 := temp_buffer.set index c
      let length1 := (length + 1) % 2 ^ 32
      if value1 ≠ 0 then string8_from_u32_digits fuel temp_buffer1 value1 length1
      else some (temp_buffer1, length1)
    else none

/-- The copy loop `for (u32 i = 0; i < 16; ++i) buffer[i] = src[i]` with
`src = temp_buffer + 16 - length`: `n` iterations remain, counter `i`.  A read
outside the 32 bytes of `temp_buffer` or a write outside `buffer` ends the run
with `none`. -/
def string8_from_u32_copy (temp_buffer : List Nat) (length : Nat) :
    Nat → Nat → List Nat → Option (List Nat)
  | 0, _, buffer => some buffer
  | n + 1, i, buffer =>
    if length ≤ 16 ∧ 16 - length + i < 32 ∧ i < buffer.length then
      string8_from_u32_copy temp_buffer length n (i + 1)
        (buffer.set i (temp_buffer.getD (16 - length + i) 0))
    else none

/-- Function `string8_from_u32`.  `temp_buffer` is the content of the
uninitialised 32-byte stack array on entry. -/
def string8_from_u32 (temp_buffer : List Nat) (arena : memory_arena) (value : Nat) :
    Option (string8 × memory_arena) :=
  match string8_from_u32_digits (value + 1) temp_buffer value 0 with
  | none => none
  | some (temp_buffer1, length) =>
    match arena_push arena 16 with
    | none => none
    | some (region, arena1) =>
      match string8_from_u32_copy temp_buffer1 length 16 0 region.bytes with
      | none => none
      | some buffer => some ({ data := buffer, length := length }, arena1)

/-! ## String builder -/

/-- Value of `sizeof(string8_builder_node)` on the 64-bit targets of the program:
an 8-byte pointer, a 4-byte length padded to 8, and an 8-byte `next` pointer. -/
def sizeof_string8_builder_node : Nat := 24

/-- Struct `string8_builder`.  `head` is the chain of node values reachable from
the C `head` pointer through `next`; the C `tail` pointer is its last node. -/
structure string8_builder where
  head : List string8
  nodes : Nat
  total_string_length : Nat
  deriving DecidableEq

/-- Function `new_string8_builder`. -/
def new_string8_builder (arena : memory_arena) (first : string8) :
    Option (string8_builder × memory_arena) :=
  match arena_push arena sizeof_string8_builder_node with
  | none => none
  | some (_, arena1) =>
    some ({ head := [first], nodes := 1, total_string_length := first.length }, arena1)

/-- Function `string8_builder_append`; both counters are `u32`. -/
def string8_builder_append (builder : string8_builder) (arena : memory_arena) (s : string8) :
    Option (string8_builder × memory_arena) :=
  match arena_push arena sizeof_string8_builder_node with
  | none => none
  | some (_, arena1) =>
    some ({ head := builder.head ++ [s]
            nodes := (builder.nodes + 1) % 2 ^ 32
            total_string_length := (builder.total_string_length + s.length) % 2 ^ 32 }, arena1)

/-- Call `memcpy(buffer + dst, src, n)`: the bytes of `buffer` from index `dst`
on are replaced by the first `n` bytes of `src`. -/
def memcpy_at (buffer : List Nat) (dst : Nat) (src : List Nat) (n : Nat) : List Nat :=
  buffer.take dst ++ src.take n ++ buffer.drop (dst + n)

/-- The copy loop of `string8_builder_finalize`: `n` iterations remain, `node`
is the rest of the chain, `dst` the write position in `buffer`.  Following the
`next` pointer of the last node and reading through it ends the run with
`none`. -/
def string8_builder_finalize_loop : Nat → List string8 → List Nat → Nat → Option (List Nat)
  | 0, _, buffer, _ => some buffer
  | _ + 1, [], _, _ => none
  | n + 1, value :: next, buffer, dst =>
    string8_builder_finalize_loop n next (memcpy_at buffer dst value.data value.length)
      (dst + value.length)

/-- Function `string8_builder_finalize`. -/
def string8_builder_finalize (builder : string8_builder) (arena : memory_arena) :
    Option (string8 × memory_arena) :=
  match arena_push arena builder.total_string_length with
  | none => none
  | some (region, arena1) =>
    match string8_builder_finalize_loop builder.nodes builder.head region.bytes 0 with
    | none => none
    | some buffer => some ({ data := buffer, length := builder.total_string_length }, arena1)

/-- Appends the fragments of a list one after the other with
`string8_builder_append`. -/
def string8_builder_append_all (builder : string8_builder) (arena : memory_arena) :
    List string8 → Option (string8_builder × memory_arena)
  | [] => some (builder, arena)
  | s :: rest =>
    match string8_builder_append builder arena s with
    | none => none
    | some (builder1, arena1) => string8_builder_append_all builder1 arena1 rest

/-- A builder started with `first`, fed the fragments `rest` in order, and
finalized, all on one arena. -/
def string8_build (arena : memory_arena) (first : string8) (rest : List string8) :
    Option (string8 × memory_arena) :=
  match new_string8_builder arena first with
  | none => none
  | some (builder, arena1) =>
    match string8_builder_append_all builder arena1 rest with
    | none => none
    | some (builder1, arena2) => string8_builder_finalize builder1 arena2

/-! ## The request-handling block of `main` -/

/-- Lines 416-419 of `main`: the path handed to the file lookup and to the
classifier. -/
def main_lookup_path (request : http_request) : string8 :=
  let path := request.path
  if string8_equal_to path (string8_static "/") then string8_static "/index.html" else path

/-- The literal `response` of the not-found branch of `main`. -/
def main_not_found_response : string8 :=
  string8_static
    ("HTTP/1.1 404 NotFound\r\n" ++
     "Content-Type: text/html; charset=UTF-8\r\n" ++
     "Content-Length: 50\r\n" ++
     "\r\n" ++
     "<!DOCTYPE html><html><h1>404 Not Found</h1></html>")

/-- The `switch (content_type)` of `main`. -/
def main_content_type_value (content_type : http_content_type) : string8 :=
  match content_type with
  | HTTP_CONTENT_TYPE_HTML => string8_static "text/html; charset=UTF-8"
  | HTTP_CONTENT_TYPE_JS => string8_static "text/javascript; charset=UTF-8"
  | HTTP_CONTENT_TYPE_WASM => string8_static "application/wasm"
  | _ => string8_static "application/octet-stream"

/-- Lines 436-476 of `main`: the header block `response_header` built for the
lookup path `path` and a mapped file of `file_length` bytes on the arena
`scratch`. -/
def main_response_header (temp_buffer : List Nat) (scratch : memory_arena) (path : string8)
    (file_length : Nat) : Option (string8 × memory_arena) :=
  match new_string8_builder scratch
      (string8_static
        ("HTTP/1.1 200 OK\r\n" ++
         "Cross-Origin-Opener-Policy: same-origin\r\n" ++
         "Cross-Origin-Embedder-Policy: require-corp\r\n")) with
  | none => none
  | some (b0, a0) =>
  let new_line := string8_static "\r\n"
  let content_type_header := string8_static "Content-Type: "
  let content_type := parse_content_type path
  let content_type_value := main_content_type_value content_type
  match string8_builder_append b0 a0 content_type_header with
  | none => none
  | some (b1, a1) =>
  match string8_builder_append b1 a1 content_type_value with
  | none => none
  | some (b2, a2) =>
  match string8_builder_append b2 a2 new_line with
  | none => none
  | some (b3, a3) =>
  let content_length_header := string8_static "Content-Length: "
  match string8_builder_append b3 a3 content_length_header with
  | none => none
  | some (b4, a4) =>
  match string8_from_u32 temp_buffer a4 file_length with
  | none => none
  | some (number, a5) =>
  match string8_builder_append b4 a5 number with
  | none => none
  | some (b5, a6) =>
  match string8_builder_append b5 a6 new_line with
  | none => none
  | some (b6, a7) =>
  match string8_builder_append b6 a7 new_line with
  | none => none
  | some (b7, a8) => string8_builder_finalize b7 a8

/-! ## Specification vocabulary -/

/-- The bytes the collect loop steps over: neither zero nor the terminator. -/
def collect_continues (string_terminator : Nat) (c : Nat) : Bool :=
  c != 0 && c != string_terminator

/-- The bytes of `f` behind its last occurrence of `c`, or `none` when `c` does
not occur in `f`. -/
def bytes_after_last (c : Nat) : List Nat → Option (List Nat)
  | [] => none
  | a :: l =>
    match bytes_after_last c l with
    | some e => some e
    | none => if a = c then some l else none

/-- The extension table of the specification: exact, case-sensitive matches. -/
def classify_extension (e : List Nat) : http_content_type :=
  if e = literal_bytes "html" then http_content_type.HTTP_CONTENT_TYPE_HTML
  else if e = literal_bytes "css" then http_content_type.HTTP_CONTENT_TYPE_CSS
  else if e = literal_bytes "js" then http_content_type.HTTP_CONTENT_TYPE_JS
  else if e = literal_bytes "wasm" then http_content_type.HTTP_CONTENT_TYPE_WASM
  else http_content_type.HTTP_CONTENT_TYPE_DEFAULT

/-- Reference classifier, written after the specification: look up the bytes
behind the last `'.'` of the path in the extension table; a path without `'.'`
is `DEFAULT`. -/
def reference_content_type (f : List Nat) : http_content_type :=
  match bytes_after_last 46 f with
  | none => http_content_type.HTTP_CONTENT_TYPE_DEFAULT
  | some e => classify_extension e


/-- The decimal digits of `value` as ASCII bytes, most significant first; the
first argument bounds the number of digits produced. -/
def decimal_digits : Nat → Nat → List Nat
  | 0, _ => []
  | fuel + 1, value =>
    (if value / 10 ≠ 0 then decimal_digits fuel (value / 10) else []) ++ [value % 10 + 48]

/-- Reading a list of ASCII digits as a base-10 integer. -/
def decimal_value (l : List Nat) : Nat :=
  l.foldl (fun acc c => 10 * acc + (c - 48)) 0


/-- The bytes of a list of fragments, one after the other. -/
def fragments_bytes (l : List string8) : List Nat := (l.map string8.bytes).flatten

/-- The sum of the `length` fields of a list of fragments. -/
def fragments_length (l : List string8) : Nat := (l.map string8.length).sum


/-- The `Content-Type` value the specification assigns to each classification;
`CSS` shares the value of `DEFAULT`. -/
def content_type_bytes (content_type : http_content_type) : List Nat :=
  match content_type with
  | http_content_type.HTTP_CONTENT_TYPE_HTML => literal_bytes "text/html; charset=UTF-8"
  | http_content_type.HTTP_CONTENT_TYPE_JS => literal_bytes "text/javascript; charset=UTF-8"
  | http_content_type.HTTP_CONTENT_TYPE_WASM => literal_bytes "application/wasm"
  | http_content_type.HTTP_CONTENT_TYPE_DEFAULT => literal_bytes "application/octet-stream"
  | http_content_type.HTTP_CONTENT_TYPE_CSS => literal_bytes "application/octet-stream"


/-- The bytes of an HTTP message behind its first blank line (`"\r\n\r\n"`);
empty when there is no blank line. -/
def bytes_after_blank_line : List Nat → List Nat
  | [] => []
  | a :: l =>
    if a = 13 ∧ l.take 3 = [10, 13, 10] then l.drop 3 else bytes_after_blank_line l


/-- A sequence of allocation requests served one after the other by
`arena_push`; `none` as soon as one of them ends in the fatal assertion. -/
def arena_push_all (arena : memory_arena) : List Nat → Option memory_arena
  | [] => some arena
  | size :: rest =>
    match arena_push arena size with
    | none => none
    | some (_, arena1) => arena_push_all arena1 rest

/-- The two arena descriptors of `main`: `temp`, set up once, and the `scratch`
of the connection being handled. -/
structure main_arenas where
  temp : memory_arena
  scratch : memory_arena
  deriving DecidableEq

/-- Line 396 of `main`: `memory_arena scratch = arena_scratch(&temp);`. -/
def main_derive_scratch (arenas : main_arenas) : main_arenas :=
  { temp := arenas.temp, scratch := arena_scratch arenas.temp }

/-- An allocation of the connection block, `arena_push(&scratch, size)`. -/
def main_scratch_push (arenas : main_arenas) (size : Nat) : Option main_arenas :=
  match arena_push arenas.scratch size with
  | none => none
  | some (_, scratch1) => some { temp := arenas.temp, scratch := scratch1 }

/-- A sequence of allocations of the connection block, all on `scratch`. -/
def main_scratch_push_all (arenas : main_arenas) : List Nat → Option main_arenas
  | [] => some arenas
  | size :: rest =>
    match main_scratch_push arenas size with
    | none => none
    | some arenas1 => main_scratch_push_all arenas1 rest


/-- The view `s` is the null view or what is left of `v` after its first `k`
bytes: the pointer has moved on by `k` and the length has shrunk by `k`. -/
def string8.null_or_suffix (s v : string8) : Prop :=
  s = null_string ∨ ∃ k, k ≤ v.length ∧ s = { data := v.data.drop k, length := v.length - k }

/-- The view `r` is the null view or a run of bytes inside `v`: it starts `i`
bytes into `v` and its `n` bytes end inside `v`. -/
def string8.null_or_subrange (r v : string8) : Prop :=
  r = null_string ∨ ∃ i n, i + n ≤ v.length ∧ r = { data := v.data.drop i, length := n }

/-- Two views denote the same bytes; what lies behind them in memory may
differ. -/
def string8.same_bytes (a b : string8) : Prop :=
  a.length = b.length ∧ a.bytes = b.bytes


/-- One of the four popping operations on a view, with its arguments. -/
inductive string8_operation where
  | pop_char
  | pop_expected_string (expected : string8)
  | pop_expected_char (expected : Nat)
  | pop_and_collect_string (string_terminator : Nat) (allow_end_of_string : Bool)

/-- The view an operation leaves behind. -/
def string8_operation.apply (op : string8_operation) (s : string8) : string8 :=
  match op with
  | .pop_char => (string8_pop_char s).2
  | .pop_expected_string expected => string8_pop_expected_string s expected
  | .pop_expected_char expected => string8_pop_expected_char s expected
  | .pop_and_collect_string string_terminator allow_end_of_string =>
    (string8_pop_and_collect_string s string_terminator allow_end_of_string).2

/-- The literal an operation compares against, if it has one, is well formed. -/
def string8_operation.literal_wf (op : string8_operation) : Prop :=
  match op with
  | .pop_expected_string expected => expected.wf
  | _ => True

/-- A chain of operations applied to a view one after the other, first
operation first. -/
def string8_apply_chain : List string8_operation → string8 → string8
  | [], s => s
  | op :: rest, s => string8_apply_chain rest (op.apply s)


/-- The digit loop of `string8_from_u32` with a record of its writes: the loop of
`string8_from_u32_digits`, which in addition hands back the values of the index
`15 - length` of the writes `temp_buffer[15 - length] = c`, first write first. -/
def string8_from_u32_digits_traced :
    Nat → List Nat → Nat → Nat → Option (List Nat × Nat × List Nat)
  | 0, _, _, _ => none
  | fuel + 1, temp_buffer, value, length =>
    let c := (value % 10 + 48) % 256
    let value1 := value / 10
    let index := (15 + 2 ^ 32 - length) % 2 ^ 32
    if index < 32 then
      let temp_buffer1 := temp_buffer.set index c
      let length1 := (length + 1) % 2 ^ 32
      if value1 ≠ 0 then
        match string8_from_u32_digits_traced fuel temp_buffer1 value1 length1 with
        | none => none
        | some (temp_buffer2, length2, writes) => some (temp_buffer2, length2, index :: writes)
      else some (temp_buffer1, length1, [index])
    else none

/-- The copy loop of `string8_from_u32` with a record of its accesses: the loop
of `string8_from_u32_copy`, which in addition hands back, for every iteration,
the index read in `temp_buffer` and the index written in `buffer`. -/
def string8_from_u32_copy_traced (temp_buffer : List Nat) (length : Nat) :
    Nat → Nat → List Nat → Option (List Nat × List (Nat × Nat))
  | 0, _, buffer => some (buffer, [])
  | n + 1, i, buffer =>
    if length ≤ 16 ∧ 16 - length + i < 32 ∧ i < buffer.length then
      match string8_from_u32_copy_traced temp_buffer length n (i + 1)
          (buffer.set i (temp_buffer.getD (16 - length + i) 0)) with
      | none => none
      | some (buffer1, accesses) => some (buffer1, (16 - length + i, i) :: accesses)
    else none


/-! ## Lemmas on views -/

theorem null_string_length : null_string.length = 0 := rfl

theorem string8_ext_fields (s : string8) :
    ({ data := s.data, length := s.length } : string8) = s := by
  cases s; rfl

theorem string8_bytes_length (s : string8) (h : s.wf) : s.bytes.length = s.length := by
  unfold string8.bytes string8.wf at *
  simp [List.length_take, h]

theorem string8_of_bytes_wf (l : List Nat) : (string8.of_bytes l).wf := by
  simp [string8.of_bytes, string8.wf]

theorem string8_of_bytes_bytes (l : List Nat) : (string8.of_bytes l).bytes = l := by
  simp [string8.of_bytes, string8.bytes]

theorem string8_static_wf (str : String) : (string8_static str).wf := by
  simp [string8_static, string8.wf]

theorem string8_static_bytes (str : String) : (string8_static str).bytes = literal_bytes str := by
  simp [string8_static, string8.bytes]

theorem string8_static_length (str : String) :
    (string8_static str).length = (literal_bytes str).length := by
  simp [string8_static]

/-- Popping from a non-empty well-formed view. -/
theorem string8_pop_char_cons (a : Nat) (d : List Nat) (n : Nat) :
    string8_pop_char { data := a :: d, length := n + 1 } = (a, { data := d, length := n }) := by
  simp [string8_pop_char]

theorem string8_pop_char_null : string8_pop_char null_string = (0, null_string) := rfl

/-- Once the view is null the expectation loop leaves it null. -/
theorem string8_pop_expected_string_loop_null (expected : string8) :
    ∀ (k i : Nat), string8_pop_expected_string_loop expected k i null_string = null_string := by
  intro k
  induction k with
  | zero => intro i; rfl
  | succ k ih =>
    intro i
    simp only [string8_pop_expected_string_loop, string8_pop_char_null, ite_self]
    exact ih (i + 1)

/-- The expectation loop on a view that holds at least `k` bytes: it advances by
`k` bytes when they match the expected bytes from index `i` on, and yields the
null view otherwise. -/
theorem string8_pop_expected_string_loop_spec (e : List Nat) (m : Nat) :
    ∀ (k i : Nat) (d : List Nat) (n : Nat), k ≤ n → n ≤ d.length → i + k ≤ e.length →
      string8_pop_expected_string_loop { data := e, length := m } k i { data := d, length := n } =
        if (e.drop i).take k = d.take k then { data := d.drop k, length := n - k }
        else null_string := by
  intro k
  induction k with
  | zero => intro i d n _ _ _; simp [string8_pop_expected_string_loop]
  | succ k ih =>
    intro i d n hk hn hi
    obtain ⟨n', rfl⟩ : ∃ n', n = n' + 1 := ⟨n - 1, by omega⟩
    cases d with
    | nil => simp at hn
    | cons a d' =>
      have hilt : i < e.length := by omega
      have hdrop : e.drop i = e[i] :: e.drop (i + 1) := List.drop_eq_getElem_cons hilt
      have hget : e.getD i 0 = e[i] := by
        simp [List.getD_eq_getElem?_getD, List.getElem?_eq_getElem hilt]
      simp only [string8_pop_expected_string_loop, string8_pop_char_cons, hget, hdrop,
        List.take_succ_cons, List.cons.injEq, List.drop_succ_cons]
      by_cases hne : e[i] = a
      · have hih := ih (i + 1) d' n' (by omega) (by simpa using hn) (by omega)
        simp only [hne, ne_eq, not_true_eq_false, if_false, true_and]
        rw [hih]
        simp
      · simp only [ne_eq, hne, not_false_eq_true, if_true, false_and, if_false]
        exact string8_pop_expected_string_loop_null _ k (i + 1)

/-- Function `string8_pop_expected_string` on well-formed views: the rest of `s`
behind the expected bytes when they are a prefix of `s`, the null view
otherwise. -/
theorem string8_pop_expected_string_spec (s expected : string8) (hs : s.wf) (he : expected.wf) :
    string8_pop_expected_string s expected =
      if expected.bytes <+: s.bytes then
        { data := s.data.drop expected.length, length := s.length - expected.length }
      else null_string := by
  obtain ⟨d, n⟩ := s
  obtain ⟨e, m⟩ := expected
  simp only [string8.wf] at hs he
  simp only [string8_pop_expected_string, string8.bytes]
  by_cases hlt : n < m
  · have hnp : ¬ (e.take m <+: d.take n) := by
      intro hp
      have := hp.length_le
      simp [List.length_take] at this
      omega
    simp [hlt, hnp]
  · have hmn : m ≤ n := by omega
    rw [if_neg hlt, string8_pop_expected_string_loop_spec e m m 0 d n hmn hs (by omega)]
    have hiff : (e.take m <+: d.take n) ↔ (e.drop 0).take m = d.take m := by
      rw [List.prefix_iff_eq_take]
      simp [List.length_take, he, List.take_take, hmn]
    by_cases hc : (e.drop 0).take m = d.take m
    · rw [if_pos hc, if_pos (hiff.mpr hc)]
    · rw [if_neg hc, if_neg (fun h => hc (hiff.mp h))]

theorem collect_continues_iff (t c : Nat) : collect_continues t c = true ↔ c ≠ 0 ∧ c ≠ t := by
  simp [collect_continues]

/-- The collect loop, started on a well-formed view with `c` the peeked byte and
a budget of at least the length of the view, stops after stepping over the longest
run of bytes that are neither zero nor the terminator. -/
theorem string8_pop_and_collect_string_loop_spec (t : Nat) :
    ∀ (fuel : Nat) (r : string8) (d : List Nat) (n : Nat), n ≤ d.length → n ≤ fuel →
      string8_pop_and_collect_string_loop t fuel
          { result := r, s := { data := d, length := n },
            c := string8_safe_peek { data := d, length := n } } =
        { result := { data := r.data,
                      length := r.length + ((d.take n).takeWhile (collect_continues t)).length },
          s := { data := d.drop ((d.take n).takeWhile (collect_continues t)).length,
                 length := n - ((d.take n).takeWhile (collect_continues t)).length },
          c := string8_safe_peek
                 { data := d.drop ((d.take n).takeWhile (collect_continues t)).length,
                   length := n - ((d.take n).takeWhile (collect_continues t)).length } } := by
  intro fuel
  induction fuel with
  | zero =>
    intro r d n _ hf
    obtain rfl : n = 0 := by omega
    simp [string8_pop_and_collect_string_loop, string8_ext_fields]
  | succ fuel ih =>
    intro r d n hn hf
    cases n with
    | zero =>
      simp [string8_pop_and_collect_string_loop, string8_safe_peek, string8_ext_fields]
    | succ n' =>
      cases d with
      | nil => simp at hn
      | cons a d' =>
        have hpeek : string8_safe_peek { data := a :: d', length := n' + 1 } = a := by
          simp [string8_safe_peek]
        rw [hpeek]
        by_cases hc : a ≠ 0 ∧ a ≠ t
        · have hcc : collect_continues t a = true := (collect_continues_iff t a).mpr hc
          have hstep := ih { data := r.data, length := r.length + 1 } d' n'
            (by simpa using hn) (by omega)
          simp only [string8_pop_and_collect_string_loop, hc, and_self, if_true,
            string8_pop_char_cons, ne_eq, not_false_eq_true]
          rw [hstep]
          simp [List.take_succ_cons, List.takeWhile_cons, hcc, Nat.add_assoc, Nat.add_comm 1]
        · have hcc : collect_continues t a = false := by
            cases h : collect_continues t a with
            | false => rfl
            | true => exact absurd ((collect_continues_iff t a).mp h) hc
          simp only [string8_pop_and_collect_string_loop, hc, if_false]
          simp [List.take_succ_cons, List.takeWhile_cons, hcc, string8_ext_fields, string8_safe_peek]

/-- Function `string8_pop_and_collect_string` on a well-formed non-empty view, in
terms of the run `k` of bytes before the first zero byte or terminator. -/
theorem string8_pop_and_collect_string_spec (s : string8) (t : Nat) (allow : Bool)
    (hs : s.wf) (hne : s.length ≠ 0) :
    string8_pop_and_collect_string s t allow =
      if !allow && string8_safe_peek
            { data := s.data.drop (s.bytes.takeWhile (collect_continues t)).length,
              length := s.length - (s.bytes.takeWhile (collect_continues t)).length } == 0
      then (null_string, null_string)
      else ({ data := s.data, length := (s.bytes.takeWhile (collect_continues t)).length },
            { data := s.data.drop (s.bytes.takeWhile (collect_continues t)).length,
              length := s.length - (s.bytes.takeWhile (collect_continues t)).length }) := by
  obtain ⟨d, n⟩ := s
  simp only [string8.wf] at hs
  simp only at hne
  simp only [string8_pop_and_collect_string, hne, if_false, string8.bytes]
  rw [string8_pop_and_collect_string_loop_spec t n { data := d, length := 0 } d n hs (le_refl n)]
  simp

/-- A budget larger than the length of the view changes nothing: the collect loop has
stopped by itself before the budget is used up. -/
theorem string8_pop_and_collect_string_loop_budget (t : Nat) (fuel : Nat) (r : string8)
    (d : List Nat) (n : Nat) (hn : n ≤ d.length) (hf : n ≤ fuel) :
    string8_pop_and_collect_string_loop t fuel
        { result := r, s := { data := d, length := n },
          c := string8_safe_peek { data := d, length := n } } =
      string8_pop_and_collect_string_loop t n
        { result := r, s := { data := d, length := n },
          c := string8_safe_peek { data := d, length := n } } := by
  rw [string8_pop_and_collect_string_loop_spec t fuel r d n hn hf,
    string8_pop_and_collect_string_loop_spec t n r d n hn (le_refl n)]

/-! ## Views and the bytes they denote -/

theorem string8_bytes_drop (d : List Nat) (n k : Nat) :
    ({ data := d.drop k, length := n - k } : string8).bytes =
      ({ data := d, length := n } : string8).bytes.drop k := by
  simp [string8.bytes, List.drop_take]

theorem string8_bytes_take (d : List Nat) (n k : Nat) (hk : k ≤ n) :
    ({ data := d, length := k } : string8).bytes =
      ({ data := d, length := n } : string8).bytes.take k := by
  simp [string8.bytes, List.take_take, hk]

theorem string8_wf_drop (d : List Nat) (n k : Nat) (h : n ≤ d.length) :
    ({ data := d.drop k, length := n - k } : string8).wf := by
  simp only [string8.wf, List.length_drop]
  omega

/-- Peeking a well-formed view whose bytes start with `a` yields `a`. -/
theorem string8_safe_peek_of_bytes (s : string8) (a : Nat) (l : List Nat)
    (h : s.bytes = a :: l) : string8_safe_peek s = a := by
  obtain ⟨d, n⟩ := s
  simp only [string8.bytes] at h
  cases n with
  | zero => simp at h
  | succ n =>
    cases d with
    | nil => simp at h
    | cons x d' =>
      simp only [List.take_succ_cons, List.cons.injEq] at h
      simp [string8_safe_peek, h.1]

/-- Peeking a view without bytes yields the zero sentinel. -/
theorem string8_safe_peek_of_empty (s : string8) (hs : s.wf) (h : s.bytes = []) :
    string8_safe_peek s = 0 := by
  have := string8_bytes_length s hs
  rw [h] at this
  simp [string8_safe_peek, ← this]

/-- Popping a well-formed view whose bytes start with `a`. -/
theorem string8_pop_char_of_bytes (s : string8) (a : Nat) (l : List Nat)
    (h : s.bytes = a :: l) :
    string8_pop_char s = (a, { data := s.data.drop 1, length := s.length - 1 }) := by
  obtain ⟨d, n⟩ := s
  simp only [string8.bytes] at h
  cases n with
  | zero => simp at h
  | succ n =>
    cases d with
    | nil => simp at h
    | cons x d' =>
      simp only [List.take_succ_cons, List.cons.injEq] at h
      simp [string8_pop_char, h.1]

/-- Popping a view without bytes yields the zero sentinel and leaves the view. -/
theorem string8_pop_char_of_empty (s : string8) (hs : s.wf) (h : s.bytes = []) :
    string8_pop_char s = (0, s) := by
  have := string8_bytes_length s hs
  rw [h] at this
  simp [string8_pop_char, ← this]

/-- Collecting stops at the first terminator: the bytes in front of it are
returned and the view is left at the terminator. -/
theorem string8_pop_and_collect_string_found (s : string8) (t : Nat) (allow : Bool)
    (pre post : List Nat) (hs : s.wf) (hb : s.bytes = pre ++ t :: post)
    (hpre : ∀ b ∈ pre, b ≠ 0 ∧ b ≠ t) (ht : t ≠ 0) :
    string8_pop_and_collect_string s t allow =
      ({ data := s.data, length := pre.length },
       { data := s.data.drop pre.length, length := s.length - pre.length }) := by
  have hlen := string8_bytes_length s hs
  have hne : s.length ≠ 0 := by
    rw [← hlen, hb]; simp
  have htw : s.bytes.takeWhile (collect_continues t) = pre := by
    rw [hb, List.takeWhile_append_of_pos (fun b hbm => (collect_continues_iff t b).mpr (hpre b hbm))]
    simp [List.takeWhile_cons, collect_continues]
  rw [string8_pop_and_collect_string_spec s t allow hs hne, htw]
  have hrest : ({ data := s.data.drop pre.length, length := s.length - pre.length } : string8).bytes
      = t :: post := by
    rw [string8_bytes_drop, string8_ext_fields, hb]
    simp
  rw [string8_safe_peek_of_bytes _ t post hrest]
  simp [ht]

/-- Collecting runs into a zero byte or the end of the view before any
terminator: with `allow_end_of_string` unset both views become null, with it
set the bytes before that point are returned. -/
theorem string8_pop_and_collect_string_no_terminator (s : string8) (t : Nat) (allow : Bool)
    (pre post : List Nat) (hs : s.wf) (hne : s.length ≠ 0) (hb : s.bytes = pre ++ post)
    (hpre : ∀ b ∈ pre, b ≠ 0 ∧ b ≠ t) (hpost : post = [] ∨ post.head? = some 0) :
    string8_pop_and_collect_string s t allow =
      if allow then
        ({ data := s.data, length := pre.length },
         { data := s.data.drop pre.length, length := s.length - pre.length })
      else (null_string, null_string) := by
  have htw : s.bytes.takeWhile (collect_continues t) = pre := by
    rw [hb, List.takeWhile_append_of_pos (fun b hbm => (collect_continues_iff t b).mpr (hpre b hbm))]
    rcases hpost with h | h
    · simp [h]
    · cases post with
      | nil => simp
      | cons x xs =>
        simp only [List.head?_cons, Option.some.injEq] at h
        simp [List.takeWhile_cons, collect_continues, h]
  rw [string8_pop_and_collect_string_spec s t allow hs hne, htw]
  have hrest : ({ data := s.data.drop pre.length, length := s.length - pre.length } : string8).bytes
      = post := by
    rw [string8_bytes_drop, string8_ext_fields, hb]
    simp
  have hpeek : string8_safe_peek
      { data := s.data.drop pre.length, length := s.length - pre.length } = 0 := by
    rcases hpost with h | h
    · exact string8_safe_peek_of_empty _ (string8_wf_drop _ _ _ hs) (by rw [hrest, h])
    · cases post with
      | nil => simp at h
      | cons x xs =>
        simp only [List.head?_cons, Option.some.injEq] at h
        subst h
        exact string8_safe_peek_of_bytes _ 0 xs hrest
  rw [hpeek]
  cases allow <;> simp

/-- Collecting from a view of length zero fails. -/
theorem string8_pop_and_collect_string_empty (s : string8) (t : Nat) (allow : Bool)
    (h : s.length = 0) :
    string8_pop_and_collect_string s t allow = (null_string, null_string) := by
  simp [string8_pop_and_collect_string, h]

/-! ## Request parser -/

theorem literal_bytes_GET : literal_bytes "GET " = [71, 69, 84, 32] := by decide

theorem literal_bytes_HTTP :
    literal_bytes " HTTP/1.1\r\n" = [32, 72, 84, 84, 80, 47, 49, 46, 49, 13, 10] := by decide

/-- The parser on a well-formed request line: the path view starts four bytes
into the request and covers the bytes up to the first space. -/
theorem parse_http_request_spec (request : string8) (p t : List Nat) (hwf : request.wf)
    (hb : request.bytes = literal_bytes "GET " ++ p ++ literal_bytes " HTTP/1.1\r\n" ++ t)
    (hp : ∀ b ∈ p, b ≠ 32 ∧ b ≠ 0) :
    (parse_http_request request).path = { data := request.data.drop 4, length := p.length } ∧
      (parse_http_request request).path.bytes = p := by
  have hpre : (string8_static "GET ").bytes <+: request.bytes := by
    rw [string8_static_bytes, hb]
    simp [List.append_assoc]
  have h1 : string8_pop_expected_string request (string8_static "GET ") =
      { data := request.data.drop 4, length := request.length - 4 } := by
    rw [string8_pop_expected_string_spec request _ hwf (string8_static_wf _), if_pos hpre]
    rfl
  have hb1 : ({ data := request.data.drop 4, length := request.length - 4 } : string8).bytes =
      p ++ 32 :: ([72, 84, 84, 80, 47, 49, 46, 49, 13, 10] ++ t) := by
    rw [string8_bytes_drop, string8_ext_fields, hb, literal_bytes_GET, literal_bytes_HTTP]
    simp
  have h2 := string8_pop_and_collect_string_found
    { data := request.data.drop 4, length := request.length - 4 } 32 false p _
    (string8_wf_drop _ _ _ hwf) hb1 (fun b hbm => ⟨(hp b hbm).2, (hp b hbm).1⟩) (by decide)
  have hpath : (parse_http_request request).path =
      { data := request.data.drop 4, length := p.length } := by
    simp only [parse_http_request, h1, h2]
  refine ⟨hpath, ?_⟩
  rw [hpath]
  have hle : p.length ≤ request.length - 4 := by
    have := string8_bytes_length _ (string8_wf_drop request.data request.length 4 hwf)
    rw [hb1] at this
    simp at this
    omega
  rw [string8_bytes_take _ (request.length - 4) _ hle, hb1]
  simp

/-- C1 (as amended): for every well-formed request view whose bytes are
`"GET " ++ p ++ " HTTP/1.1\r\n" ++ t`, where `p` contains neither a space byte
nor a zero byte, `parse_http_request` returns the path view that starts four
bytes into the request and has the length of `p`; its bytes are exactly `p`,
whatever `t` is. -/
theorem parse_http_request_path (request : string8) (p t : List Nat) (hwf : request.wf)
    (hb : request.bytes = literal_bytes "GET " ++ p ++ literal_bytes " HTTP/1.1\r\n" ++ t)
    (hp : ∀ b ∈ p, b ≠ 32 ∧ b ≠ 0) :
    (parse_http_request request).path = { data := request.data.drop 4, length := p.length } ∧
      (parse_http_request request).path.bytes = p :=
  parse_http_request_spec request p t hwf hb hp

/-- Witness for `parse_http_request_path`: the request line
`"GET /foo.js HTTP/1.1\r\n"` followed by a header line yields `"/foo.js"`. -/
theorem parse_http_request_path_witness :
    (parse_http_request
        (string8.of_bytes (literal_bytes "GET /foo.js HTTP/1.1\r\nHost: a\r\n"))).path.bytes =
      literal_bytes "/foo.js" :=
  (parse_http_request_path
    (string8.of_bytes (literal_bytes "GET /foo.js HTTP/1.1\r\nHost: a\r\n"))
    (literal_bytes "/foo.js") (literal_bytes "Host: a\r\n")
    (string8_of_bytes_wf _) (by decide) (by decide)).2

/-- C1 (as stated) fails: the path `"/\0a"` contains no space byte, yet the
request `"GET /\0a HTTP/1.1\r\n"` is parsed to the null path, because the
collect loop treats a zero byte as the end of the input. -/
theorem parse_http_request_path_counterexample :
    (∀ b ∈ [47, 0, 97], b ≠ 32) ∧
      (parse_http_request
          (string8.of_bytes
            (literal_bytes "GET " ++ [47, 0, 97] ++ literal_bytes " HTTP/1.1\r\n" ++ []))).path =
        null_string ∧
      (parse_http_request
          (string8.of_bytes
            (literal_bytes "GET " ++ [47, 0, 97] ++ literal_bytes " HTTP/1.1\r\n" ++ []))).path.bytes ≠
        [47, 0, 97] := by
  decide

/-- C2 at the failing input `"GET /foo HTTP/1.0\r\n"`: the input is not of the
form `"GET " ++ p ++ " HTTP/1.1\r\n" ++ t` with `p` free of spaces, and
`parse_http_request` nevertheless returns the four-byte path `"/foo"`: the
outcome of the last `string8_pop_expected_string` never reaches the result. -/
theorem parse_http_request_wrong_version :
    (¬ ∃ p t : List Nat, (∀ b ∈ p, b ≠ 32) ∧
        literal_bytes "GET /foo HTTP/1.0\r\n" =
          literal_bytes "GET " ++ p ++ literal_bytes " HTTP/1.1\r\n" ++ t) ∧
      (parse_http_request (string8.of_bytes (literal_bytes "GET /foo HTTP/1.0\r\n"))).path.bytes =
        literal_bytes "/foo" ∧
      (parse_http_request (string8.of_bytes (literal_bytes "GET /foo HTTP/1.0\r\n"))).path.length =
        4 := by
  refine ⟨?_, by decide, by decide⟩
  rintro ⟨p, t, hp, h⟩
  have hl : literal_bytes "GET /foo HTTP/1.0\r\n" =
      [71, 69, 84, 32, 47, 102, 111, 111, 32, 72, 84, 84, 80, 47, 49, 46, 48, 13, 10] := by decide
  rw [hl, literal_bytes_GET, literal_bytes_HTTP] at h
  simp only [List.cons_append, List.nil_append, List.cons.injEq, true_and] at h
  rcases p with _ | ⟨a0, p⟩
  · simp at h
  rcases p with _ | ⟨a1, p⟩
  · simp at h
  rcases p with _ | ⟨a2, p⟩
  · simp at h
  rcases p with _ | ⟨a3, p⟩
  · simp at h
  rcases p with _ | ⟨a4, p⟩
  · simp at h
  · simp only [List.cons_append, List.cons.injEq] at h
    exact (hp a4 (by simp)) h.2.2.2.2.1.symm

/-- C3: for every well-formed request view whose bytes do not begin with
`"GET "` (another method, or fewer than four bytes), `parse_http_request`
returns the null path, of length 0. -/
theorem parse_http_request_other_method (request : string8) (hwf : request.wf)
    (hno : ¬ (literal_bytes "GET " <+: request.bytes)) :
    (parse_http_request request).path = null_string ∧
      (parse_http_request request).path.length = 0 := by
  have h1 : string8_pop_expected_string request (string8_static "GET ") = null_string := by
    rw [string8_pop_expected_string_spec request _ hwf (string8_static_wf _), if_neg]
    rw [string8_static_bytes]
    exact hno
  have hpath : (parse_http_request request).path = null_string := by
    simp only [parse_http_request, h1]
    rfl
  exact ⟨hpath, by rw [hpath]; rfl⟩

/-- Witness for `parse_http_request_other_method`: `"POST / HTTP/1.1\r\n"`. -/
theorem parse_http_request_other_method_witness :
    (parse_http_request (string8.of_bytes (literal_bytes "POST / HTTP/1.1\r\n"))).path =
        null_string ∧
      (parse_http_request (string8.of_bytes (literal_bytes "POST / HTTP/1.1\r\n"))).path.length =
        0 :=
  parse_http_request_other_method (string8.of_bytes (literal_bytes "POST / HTTP/1.1\r\n"))
    (string8_of_bytes_wf _) (by decide)

/-! ## Equality of views -/

theorem string8_equal_to_loop_iff (a b : string8) :
    ∀ (n i : Nat), string8_equal_to_loop a b n i = true ↔
      ∀ j, j < n → a.data.getD (i + j) 0 = b.data.getD (i + j) 0 := by
  intro n
  induction n with
  | zero => intro i; simp [string8_equal_to_loop]
  | succ n ih =>
    intro i
    simp only [string8_equal_to_loop]
    by_cases h : a.data.getD i 0 = b.data.getD i 0
    · simp only [ne_eq, h, not_true_eq_false, if_false, ih (i + 1)]
      constructor
      · intro hall j hj
        cases j with
        | zero => simpa using h
        | succ j =>
          have := hall j (by omega)
          rwa [Nat.add_assoc, Nat.add_comm 1 j] at this
      · intro hall j hj
        have := hall (j + 1) (by omega)
        rwa [Nat.add_assoc, Nat.add_comm 1 j]
    · simp only [ne_eq, h, not_false_eq_true, if_true, Bool.false_eq_true, false_iff]
      intro hall
      exact h (by simpa using hall 0 (by omega))

/-- Function `string8_equal_to` on well-formed views decides equality of the
denoted bytes. -/
theorem string8_equal_to_iff (a b : string8) (ha : a.wf) (hb : b.wf) :
    string8_equal_to a b = true ↔ a.bytes = b.bytes := by
  obtain ⟨da, na⟩ := a
  obtain ⟨db, nb⟩ := b
  simp only [string8.wf] at ha hb
  simp only [string8_equal_to, string8.bytes]
  by_cases hlen : na = nb
  · subst hlen
    simp only [ne_eq, not_true_eq_false, if_false, string8_equal_to_loop_iff, Nat.zero_add]
    constructor
    · intro hall
      apply List.ext_getElem
      · simp [List.length_take, ha, hb]
      · intro j h1 h2
        have hj : j < na := by
          simp [List.length_take] at h1
          omega
        have := hall j hj
        have hda : da[j]? = some da[j] := List.getElem?_eq_getElem (by omega)
        have hdb : db[j]? = some db[j] := List.getElem?_eq_getElem (by omega)
        simp only [List.getD_eq_getElem?_getD, hda, hdb, Option.getD_some] at this
        simpa [List.getElem_take] using this
    · intro heq j hj
      have h1 : (da.take na)[j]? = (db.take na)[j]? := by rw [heq]
      rw [List.getElem?_take_of_lt hj, List.getElem?_take_of_lt hj] at h1
      simp [List.getD_eq_getElem?_getD, h1]
  · simp only [ne_eq, hlen, not_false_eq_true, if_true, Bool.false_eq_true, false_iff]
    intro heq
    have := congrArg List.length heq
    simp [List.length_take, ha, hb] at this
    exact hlen this

/-! ## Content-type classifier -/

theorem bytes_after_last_eq_none (c : Nat) :
    ∀ l : List Nat, c ∉ l → bytes_after_last c l = none := by
  intro l
  induction l with
  | nil => intro _; rfl
  | cons a l ih =>
    intro h
    simp only [List.mem_cons, not_or] at h
    have hac : ¬ a = c := fun e => h.1 e.symm
    simp [bytes_after_last, ih h.2, hac]

theorem bytes_after_last_append (c : Nat) (post : List Nat) :
    ∀ pre : List Nat, c ∉ pre →
      bytes_after_last c (pre ++ c :: post) = some ((bytes_after_last c post).getD post) := by
  intro pre
  induction pre with
  | nil =>
    intro _
    cases h : bytes_after_last c post <;> simp [bytes_after_last, h]
  | cons a pre ih =>
    intro h
    simp only [List.mem_cons, not_or] at h
    simp [bytes_after_last, ih h.2]

/-- Splitting a list at the first occurrence of a member. -/
theorem exists_first_occurrence (c : Nat) :
    ∀ l : List Nat, c ∈ l → ∃ pre post, l = pre ++ c :: post ∧ c ∉ pre := by
  intro l
  induction l with
  | nil => intro h; simp at h
  | cons a l ih =>
    intro h
    by_cases hac : a = c
    · exact ⟨[], l, by simp [hac], by simp⟩
    · have hl : c ∈ l := by
        rcases List.mem_cons.mp h with h1 | h1
        · exact absurd h1.symm hac
        · exact h1
      obtain ⟨pre, post, hsplit, hpre⟩ := ih hl
      refine ⟨a :: pre, post, by simp [hsplit], ?_⟩
      simp only [List.mem_cons, not_or]
      exact ⟨fun e => hac e.symm, hpre⟩

theorem null_string_wf : null_string.wf := by
  simp [null_string, string8.wf]

theorem null_string_bytes : null_string.bytes = [] := rfl

/-- The extension loop, entered on a well-formed view that stands at a `'.'`
followed by the zero-free bytes `post`, ends with a well-formed view over the
bytes behind the last `'.'`. -/
theorem parse_content_type_loop_spec :
    ∀ (fuel : Nat) (s ext : string8) (post : List Nat), s.wf → s.bytes = 46 :: post →
      (∀ b ∈ post, b ≠ 0) → s.length < fuel →
      (parse_content_type_loop fuel s ext).wf ∧
        (parse_content_type_loop fuel s ext).bytes = (bytes_after_last 46 post).getD post := by
  intro fuel
  induction fuel with
  | zero => intro s ext post _ _ _ h; omega
  | succ fuel ih =>
    intro s ext post hs hb hz hf
    have hlen := string8_bytes_length s hs
    rw [hb] at hlen
    simp only [List.length_cons] at hlen
    have hs1 : ({ data := s.data.drop 1, length := s.length - 1 } : string8).wf :=
      string8_wf_drop _ _ _ hs
    have hb1 : ({ data := s.data.drop 1, length := s.length - 1 } : string8).bytes = post := by
      rw [string8_bytes_drop, string8_ext_fields, hb]
      simp
    obtain ⟨fuel', rfl⟩ : ∃ f, fuel = f + 1 := ⟨fuel - 1, by omega⟩
    simp only [parse_content_type_loop, string8_pop_char_of_bytes s 46 post hb, if_true]
    by_cases hdot : 46 ∈ post
    · -- another dot follows: the loop goes round again
      obtain ⟨pre, post', hsplit, hpre⟩ := exists_first_occurrence 46 post hdot
      have hfound := string8_pop_and_collect_string_found
        { data := s.data.drop 1, length := s.length - 1 } 46 true pre post' hs1
        (by rw [hb1, hsplit])
        (fun b hbm => ⟨hz b (by rw [hsplit]; simp [hbm]), fun e => hpre (e ▸ hbm)⟩) (by decide)
      rw [hfound]
      have hs2 : ({ data := (s.data.drop 1).drop pre.length,
                    length := s.length - 1 - pre.length } : string8).wf :=
        string8_wf_drop _ _ _ hs1
      have hb2 : ({ data := (s.data.drop 1).drop pre.length,
                    length := s.length - 1 - pre.length } : string8).bytes = 46 :: post' := by
        rw [string8_bytes_drop, hb1, hsplit]
        simp
      have hrec := ih { data := (s.data.drop 1).drop pre.length,
                        length := s.length - 1 - pre.length }
        { data := s.data.drop 1, length := pre.length } post' hs2 hb2
        (fun b hbm => hz b (by rw [hsplit]; simp [hbm])) (by simp only; omega)
      rw [hsplit, bytes_after_last_append 46 post' pre hpre]
      simpa using hrec
    · rw [bytes_after_last_eq_none 46 post hdot]
      cases hpost : post with
      | nil =>
        -- nothing follows the dot: collecting fails and the extension is null
        have hzero : s.length - 1 = 0 := by rw [hpost] at hlen; simp at hlen; omega
        rw [string8_pop_and_collect_string_empty _ 46 true hzero]
        simp only [parse_content_type_loop, string8_pop_char_null]
        exact ⟨null_string_wf, by simp [null_string_bytes]⟩
      | cons x xs =>
        -- the rest is the extension: it is collected up to the end of the view
        have hne : s.length - 1 ≠ 0 := by rw [hpost] at hlen; simp at hlen; omega
        have hcol := string8_pop_and_collect_string_no_terminator
          { data := s.data.drop 1, length := s.length - 1 } 46 true post [] hs1 hne
          (by rw [hb1]; simp)
          (fun b hbm => ⟨hz b hbm, fun e => hdot (e ▸ hbm)⟩) (Or.inl rfl)
        rw [← hpost, hcol]
        have hlen1 : s.length - 1 = post.length := by omega
        have hb3 : ({ data := (s.data.drop 1).drop post.length,
                      length := s.length - 1 - post.length } : string8).bytes = [] := by
          rw [string8_bytes_drop, hb1]
          simp
        have hs3 : ({ data := (s.data.drop 1).drop post.length,
                      length := s.length - 1 - post.length } : string8).wf :=
          string8_wf_drop _ _ _ hs1
        simp only [if_true, parse_content_type_loop, string8_pop_char_of_empty _ hs3 hb3]
        simp only [Nat.reduceEqDiff, if_false, Option.getD_none]
        constructor
        · simp only [string8.wf] at hs1 ⊢
          omega
        · rw [string8_bytes_take _ (s.length - 1) _ (by omega), hb1]
          simp

/-- The chain of `string8_equal_to` tests of `parse_content_type` is the
extension table applied to the bytes of the extension view. -/
theorem parse_content_type_table (ext : string8) (h : ext.wf) :
    (if string8_equal_to ext (string8_static "html") then
        http_content_type.HTTP_CONTENT_TYPE_HTML
      else if string8_equal_to ext (string8_static "css") then
        http_content_type.HTTP_CONTENT_TYPE_CSS
      else if string8_equal_to ext (string8_static "js") then
        http_content_type.HTTP_CONTENT_TYPE_JS
      else if string8_equal_to ext (string8_static "wasm") then
        http_content_type.HTTP_CONTENT_TYPE_WASM
      else http_content_type.HTTP_CONTENT_TYPE_DEFAULT) = classify_extension ext.bytes := by
  simp only [string8_equal_to_iff ext _ h (string8_static_wf _), string8_static_bytes,
    classify_extension]

/-- C4 (as amended): for every well-formed path view whose bytes contain no zero
byte, `parse_content_type` equals the reference classifier, which looks up the
bytes behind the last `'.'` in the extension table and answers `DEFAULT` for
every other extension and for a path without `'.'`. -/
theorem parse_content_type_eq_reference (f : string8) (hwf : f.wf)
    (hz : ∀ b ∈ f.bytes, b ≠ 0) :
    parse_content_type f = reference_content_type f.bytes := by
  have hdefault : classify_extension [] = http_content_type.HTTP_CONTENT_TYPE_DEFAULT := by
    decide
  have hnull : parse_content_type_loop (null_string.length + 1) null_string null_string =
      null_string := rfl
  by_cases hdot : 46 ∈ f.bytes
  · obtain ⟨pre, post, hsplit, hpre⟩ := exists_first_occurrence 46 f.bytes hdot
    have hfound := string8_pop_and_collect_string_found f 46 false pre post hwf hsplit
      (fun b hbm => ⟨hz b (by rw [hsplit]; simp [hbm]), fun e => hpre (e ▸ hbm)⟩) (by decide)
    have hs1 : ({ data := f.data.drop pre.length, length := f.length - pre.length } : string8).wf :=
      string8_wf_drop _ _ _ hwf
    have hb1 : ({ data := f.data.drop pre.length, length := f.length - pre.length } : string8).bytes
        = 46 :: post := by
      rw [string8_bytes_drop, string8_ext_fields, hsplit]
      simp
    have hloop := parse_content_type_loop_spec (f.length - pre.length + 1)
      { data := f.data.drop pre.length, length := f.length - pre.length } null_string post
      hs1 hb1 (fun b hbm => hz b (by rw [hsplit]; simp [hbm])) (by simp only; omega)
    simp only [parse_content_type, hfound]
    rw [parse_content_type_table _ hloop.1, hloop.2]
    simp only [reference_content_type, hsplit, bytes_after_last_append 46 post pre hpre]
  · have hcol : string8_pop_and_collect_string f 46 false = (null_string, null_string) := by
      by_cases hlen : f.length = 0
      · exact string8_pop_and_collect_string_empty f 46 false hlen
      · have := string8_pop_and_collect_string_no_terminator f 46 false f.bytes [] hwf hlen
          (by simp) (fun b hbm => ⟨hz b hbm, fun e => hdot (e ▸ hbm)⟩) (Or.inl rfl)
        simpa using this
    simp only [parse_content_type, hcol, hnull]
    rw [parse_content_type_table _ null_string_wf, null_string_bytes, hdefault]
    simp only [reference_content_type, bytes_after_last_eq_none 46 f.bytes hdot]

/-- The classifier on the sample paths of the specification. -/
theorem parse_content_type_samples :
    parse_content_type (string8.of_bytes (literal_bytes "index.html")) =
        http_content_type.HTTP_CONTENT_TYPE_HTML ∧
      parse_content_type (string8.of_bytes (literal_bytes "main.wasm")) =
        http_content_type.HTTP_CONTENT_TYPE_WASM ∧
      parse_content_type (string8.of_bytes (literal_bytes "archive.tar.gz")) =
        http_content_type.HTTP_CONTENT_TYPE_DEFAULT ∧
      parse_content_type (string8.of_bytes (literal_bytes "noext")) =
        http_content_type.HTTP_CONTENT_TYPE_DEFAULT ∧
      parse_content_type (string8.of_bytes (literal_bytes "style.css")) =
        http_content_type.HTTP_CONTENT_TYPE_CSS ∧
      parse_content_type (string8.of_bytes (literal_bytes "/app.js")) =
        http_content_type.HTTP_CONTENT_TYPE_JS := by
  decide

/-- Witness for `parse_content_type_eq_reference`: `"archive.tar.gz"`. -/
theorem parse_content_type_eq_reference_witness :
    parse_content_type (string8.of_bytes (literal_bytes "archive.tar.gz")) =
      reference_content_type (string8.of_bytes (literal_bytes "archive.tar.gz")).bytes :=
  parse_content_type_eq_reference (string8.of_bytes (literal_bytes "archive.tar.gz"))
    (string8_of_bytes_wf _) (by decide)

/-- C4 (as stated) fails on a view with a zero byte: for the five bytes
`"a.js\0"` the bytes behind the last `'.'` are `"js\0"`, which the reference
classifier maps to `DEFAULT`, while `parse_content_type` stops collecting at the
zero byte and answers `JS`. -/
theorem parse_content_type_counterexample :
    parse_content_type (string8.of_bytes [97, 46, 106, 115, 0]) =
        http_content_type.HTTP_CONTENT_TYPE_JS ∧
      reference_content_type (string8.of_bytes [97, 46, 106, 115, 0]).bytes =
        http_content_type.HTTP_CONTENT_TYPE_DEFAULT := by
  decide

/-! ## Decimal formatting -/

theorem decimal_digits_ne_nil (fuel value : Nat) : decimal_digits (fuel + 1) value ≠ [] := by
  simp [decimal_digits]

theorem decimal_digits_length_pos (fuel value : Nat) :
    1 ≤ (decimal_digits (fuel + 1) value).length := by
  simp [decimal_digits]

theorem decimal_digits_length_le :
    ∀ (fuel value k : Nat), value < 10 ^ (k + 1) → (decimal_digits fuel value).length ≤ k + 1 := by
  intro fuel
  induction fuel with
  | zero => intro value k _; simp [decimal_digits]
  | succ fuel ih =>
    intro value k hv
    simp only [decimal_digits]
    by_cases h : value / 10 = 0
    · simp [h]
    · cases k with
      | zero =>
        exfalso
        apply h
        simp at hv
        omega
      | succ k =>
        have hlt : value / 10 < 10 ^ (k + 1) := by
          rw [Nat.div_lt_iff_lt_mul (by decide)]
          calc value < 10 ^ (k + 1 + 1) := hv
            _ = 10 ^ (k + 1) * 10 := by ring
        have := ih (value / 10) k hlt
        simp only [ne_eq, h, not_false_eq_true, if_true, List.length_append, List.length_singleton]
        omega

theorem decimal_digits_are_digits :
    ∀ (fuel value : Nat), ∀ c ∈ decimal_digits fuel value, 48 ≤ c ∧ c ≤ 57 := by
  intro fuel
  induction fuel with
  | zero => intro value c hc; simp [decimal_digits] at hc
  | succ fuel ih =>
    intro value c hc
    simp only [decimal_digits, List.mem_append, List.mem_singleton] at hc
    rcases hc with hc | hc
    · by_cases h : value / 10 = 0
      · simp [h] at hc
      · simp only [ne_eq, h, not_false_eq_true, if_true] at hc
        exact ih _ c hc
    · omega

theorem decimal_value_append (l : List Nat) (c : Nat) :
    decimal_value (l ++ [c]) = 10 * decimal_value l + (c - 48) := by
  simp [decimal_value, List.foldl_append]

theorem decimal_value_decimal_digits :
    ∀ (fuel value : Nat), value < fuel → decimal_value (decimal_digits fuel value) = value := by
  intro fuel
  induction fuel with
  | zero => intro value h; omega
  | succ fuel ih =>
    intro value hv
    simp only [decimal_digits]
    rw [decimal_value_append]
    by_cases h : value / 10 = 0
    · simp only [ne_eq, h, not_true_eq_false, if_false]
      simp [decimal_value]
      omega
    · simp only [ne_eq, h, not_false_eq_true, if_true]
      rw [ih (value / 10) (by omega)]
      omega

theorem decimal_digits_leading_zero :
    ∀ (fuel value : Nat), value < fuel → (decimal_digits fuel value).head? = some 48 →
      value = 0 := by
  intro fuel
  induction fuel with
  | zero => intro value h; omega
  | succ fuel ih =>
    intro value hv hhead
    simp only [decimal_digits] at hhead
    by_cases h : value / 10 = 0
    · simp only [ne_eq, h, not_true_eq_false, if_false, List.nil_append, List.head?_cons,
        Option.some.injEq] at hhead
      omega
    · simp only [ne_eq, h, not_false_eq_true, if_true] at hhead
      obtain ⟨fuel', rfl⟩ : ∃ f, fuel = f + 1 := ⟨fuel - 1, by omega⟩
      have hne := decimal_digits_ne_nil fuel' (value / 10)
      rw [List.head?_append_of_ne_nil _ hne] at hhead
      exact absurd (ih (value / 10) (by omega) hhead) h

theorem digitChar_toNat (d : Nat) (h : d < 10) : (Nat.digitChar d).toNat = d + 48 := by
  interval_cases d <;> rfl

/-- The digits are those of the library numeral `Nat.toDigits 10`. -/
theorem toDigitsCore_eq_decimal_digits :
    ∀ (fuel value : Nat) (ds : List Char),
      (Nat.toDigitsCore 10 fuel value ds).map Char.toNat =
        decimal_digits fuel value ++ ds.map Char.toNat := by
  intro fuel
  induction fuel with
  | zero => intro value ds; simp [Nat.toDigitsCore, decimal_digits]
  | succ fuel ih =>
    intro value ds
    simp only [Nat.toDigitsCore, decimal_digits]
    by_cases h : value / 10 = 0
    · simp [h, digitChar_toNat (value % 10) (Nat.mod_lt _ (by decide))]
    · simp [h, ih, digitChar_toNat (value % 10) (Nat.mod_lt _ (by decide))]

theorem literal_bytes_repr (value : Nat) :
    literal_bytes (Nat.repr value) = decimal_digits (value + 1) value := by
  simp [literal_bytes, Nat.repr, Nat.toDigits, List.asString, toDigitsCore_eq_decimal_digits]

/-- The digit loop of `string8_from_u32`: started with `length` digits already
written, it writes the digits of `value` into the slots in front of them,
leaves the rest of `temp_buffer` alone, and neither leaves the array nor uses up
its budget. -/
theorem string8_from_u32_digits_spec :
    ∀ (fuel : Nat) (temp_buffer : List Nat) (value length : Nat), temp_buffer.length = 32 →
      value < fuel → length + (decimal_digits fuel value).length ≤ 16 →
      string8_from_u32_digits fuel temp_buffer value length =
        some (temp_buffer.take (16 - length - (decimal_digits fuel value).length) ++
                decimal_digits fuel value ++ temp_buffer.drop (16 - length),
              length + (decimal_digits fuel value).length) := by
  intro fuel
  induction fuel with
  | zero => intro tb value length _ h; omega
  | succ fuel ih =>
    intro tb value length htb hv hroom
    have hlen1 := decimal_digits_length_pos fuel value
    have hindex : (15 + 2 ^ 32 - length) % 2 ^ 32 = 15 - length := by omega
    have hc : (value % 10 + 48) % 256 = value % 10 + 48 := by omega
    have hl1 : (length + 1) % 2 ^ 32 = length + 1 := by omega
    have hin : 15 - length < 32 := by omega
    have hset : tb.set (15 - length) (value % 10 + 48) =
        tb.take (15 - length) ++ (value % 10 + 48) :: tb.drop (15 - length + 1) :=
      List.set_eq_take_cons_drop _ (by omega)
    simp only [string8_from_u32_digits, hindex, hc, hl1, hin, if_true]
    by_cases h : value / 10 = 0
    · simp only [ne_eq, h, not_true_eq_false, if_false, decimal_digits, List.nil_append,
        List.length_singleton, hset]
      have e1 : 16 - length - 1 = 15 - length := by omega
      have e2 : 15 - length + 1 = 16 - length := by omega
      simp [e1, e2]
    · have hd : decimal_digits (fuel + 1) value =
          decimal_digits fuel (value / 10) ++ [value % 10 + 48] := by
        simp [decimal_digits, h]
      rw [hd] at hroom hlen1 ⊢
      simp only [List.length_append, List.length_singleton] at hroom hlen1 ⊢
      obtain ⟨fuel', rfl⟩ : ∃ f, fuel = f + 1 := ⟨fuel - 1, by omega⟩
      have hpos := decimal_digits_length_pos fuel' (value / 10)
      simp only [ne_eq, h, not_false_eq_true, if_true]
      rw [ih (tb.set (15 - length) (value % 10 + 48)) (value / 10) (length + 1)
        (by simpa using htb) (by omega) (by omega)]
      have e1 : 16 - (length + 1) - (decimal_digits (fuel' + 1) (value / 10)).length =
          16 - length - ((decimal_digits (fuel' + 1) (value / 10)).length + 1) := by omega
      have e2 : 16 - (length + 1) = 15 - length := by omega
      have htake : (tb.set (15 - length) (value % 10 + 48)).take
            (16 - length - ((decimal_digits (fuel' + 1) (value / 10)).length + 1)) =
          tb.take (16 - length - ((decimal_digits (fuel' + 1) (value / 10)).length + 1)) :=
        List.take_set_of_lt _ _ (by omega)
      have hdrop : (tb.set (15 - length) (value % 10 + 48)).drop (15 - length) =
          (value % 10 + 48) :: tb.drop (16 - length) := by
        rw [hset, List.drop_append_of_le_length (by simp; omega)]
        have e3 : 15 - length + 1 = 16 - length := by omega
        simp [List.drop_take, e3]
      rw [e1, e2, htake, hdrop]
      simp [Nat.add_assoc, Nat.add_comm 1]

/-- The copy loop of `string8_from_u32` never leaves `temp_buffer` or `buffer`:
with `i + n = 16` it fills `buffer[i..16)` from `temp_buffer[16 - length + i ..]`. -/
theorem string8_from_u32_copy_spec (temp_buffer : List Nat) (length : Nat)
    (htb : temp_buffer.length = 32) (hlen : length ≤ 16) :
    ∀ (n i : Nat) (buffer : List Nat), buffer.length = 16 → i + n = 16 →
      string8_from_u32_copy temp_buffer length n i buffer =
        some (buffer.take i ++ (temp_buffer.drop (16 - length + i)).take n) := by
  intro n
  induction n with
  | zero =>
    intro i buffer hb hi
    have : i = 16 := by omega
    subst this
    simp [string8_from_u32_copy, ← hb]
  | succ n ih =>
    intro i buffer hb hi
    have hcond : length ≤ 16 ∧ 16 - length + i < 32 ∧ i < buffer.length := by omega
    have hlt : 16 - length + i < temp_buffer.length := by omega
    simp only [string8_from_u32_copy, hcond, and_self, if_true]
    rw [ih (i + 1) _ (by simpa using hb) (by omega)]
    have hget : temp_buffer.getD (16 - length + i) 0 = temp_buffer[16 - length + i] :=
      List.getD_eq_getElem _ _ hlt
    have htake : (buffer.set i (temp_buffer.getD (16 - length + i) 0)).take (i + 1) =
        buffer.take i ++ [temp_buffer[16 - length + i]] := by
      rw [List.set_eq_take_cons_drop _ (by omega), hget,
        List.take_append_eq_append_take]
      have hmin : min i buffer.length = i := by omega
      simp [List.take_take, List.length_take, hmin]
    have hdrop : temp_buffer.drop (16 - length + i) =
        temp_buffer[16 - length + i] :: temp_buffer.drop (16 - length + (i + 1)) := by
      rw [List.drop_eq_getElem_cons hlt]
      rfl
    rw [htake, hdrop]
    simp

theorem arena_push_of_room (arena : memory_arena) (size : Nat)
    (h : (arena.offset + size) % 2 ^ 64 < arena.capacity) :
    arena_push arena size =
      some ({ address := (arena.base + arena.offset) % 2 ^ 64, bytes := List.replicate size 0 },
            { arena with offset := (arena.offset + size) % 2 ^ 64 }) := by
  simp only [arena_push, arena_push_aligned, h, if_true]

/-- Function `string8_from_u32` on a `u32` value and an arena with room for
the 16-byte buffer: the view it returns and the arena it leaves. -/
theorem string8_from_u32_spec (temp_buffer : List Nat) (arena : memory_arena) (value : Nat)
    (htb : temp_buffer.length = 32) (hv : value < 2 ^ 32)
    (hroom : (arena.offset + 16) % 2 ^ 64 < arena.capacity) :
    string8_from_u32 temp_buffer arena value =
      some ({ data := decimal_digits (value + 1) value ++
                (temp_buffer.drop 16).take (16 - (decimal_digits (value + 1) value).length),
              length := (decimal_digits (value + 1) value).length },
            { arena with offset := (arena.offset + 16) % 2 ^ 64 }) := by
  have hle : (decimal_digits (value + 1) value).length ≤ 10 :=
    decimal_digits_length_le (value + 1) value 9 (by omega)
  have hdig := string8_from_u32_digits_spec (value + 1) temp_buffer value 0 htb (by omega)
    (by omega)
  simp only [string8_from_u32, hdig, arena_push_of_room arena 16 hroom]
  rw [string8_from_u32_copy_spec _ _ (by simp [htb]; omega) (by omega) 16 0 _ (by simp) (by omega)]
  simp only [Nat.zero_add, Nat.sub_zero, List.take_zero, List.nil_append, Nat.add_zero,
    Option.some.injEq, Prod.mk.injEq, and_true, string8.mk.injEq]
  rw [List.append_assoc, List.drop_append_of_le_length (by simp [htb]; omega)]
  have hdrop : (temp_buffer.take (16 - (decimal_digits (value + 1) value).length)).drop
      (16 - (decimal_digits (value + 1) value).length) = [] := by
    simp [List.drop_take]
  rw [hdrop, List.nil_append, List.take_append_eq_append_take]
  have htake : (decimal_digits (value + 1) value).take 16 = decimal_digits (value + 1) value :=
    List.take_of_length_le (by omega)
  rw [htake]

/-- C5: for every unsigned 32-bit integer `v`, `string8_from_u32` called with an
arena that has room for its 16-byte buffer returns a view that is the canonical
decimal numeral of `v`: it has between 1 and 10 bytes, every byte is an ASCII
digit, it has no leading `'0'` unless `v = 0`, reading it back in base 10 gives
`v`, and its bytes are those of the library numeral `Nat.repr v`. -/
theorem string8_from_u32_decimal (temp_buffer : List Nat) (arena : memory_arena) (v : Nat)
    (htb : temp_buffer.length = 32) (hv : v < 2 ^ 32)
    (hroom : (arena.offset + 16) % 2 ^ 64 < arena.capacity) :
    ∃ view arena1, string8_from_u32 temp_buffer arena v = some (view, arena1) ∧
      view.wf ∧ 1 ≤ view.length ∧ view.length ≤ 10 ∧ view.bytes.length = view.length ∧
      (∀ c ∈ view.bytes, 48 ≤ c ∧ c ≤ 57) ∧
      (view.bytes.head? = some 48 → v = 0) ∧
      decimal_value view.bytes = v ∧
      view.bytes = literal_bytes (Nat.repr v) := by
  refine ⟨_, _, string8_from_u32_spec temp_buffer arena v htb hv hroom, ?_⟩
  have hbytes : ∀ l : List Nat,
      ({ data := decimal_digits (v + 1) v ++ l,
         length := (decimal_digits (v + 1) v).length } : string8).bytes =
        decimal_digits (v + 1) v := by
    intro l
    simp [string8.bytes]
  rw [hbytes]
  refine ⟨by simp [string8.wf], decimal_digits_length_pos v v,
    decimal_digits_length_le (v + 1) v 9 (by omega), rfl,
    decimal_digits_are_digits (v + 1) v,
    decimal_digits_leading_zero (v + 1) v (by omega),
    decimal_value_decimal_digits (v + 1) v (by omega),
    (literal_bytes_repr v).symm⟩

/-- Witness for `string8_from_u32_decimal`: the largest `u32` value, formatted
on an arena of 100 bytes with a stack array full of the byte 7. -/
theorem string8_from_u32_decimal_witness :
    ∃ view arena1,
      string8_from_u32 (List.replicate 32 7) { base := 4096, offset := 0, capacity := 100 }
          4294967295 = some (view, arena1) ∧
      view.wf ∧ 1 ≤ view.length ∧ view.length ≤ 10 ∧ view.bytes.length = view.length ∧
      (∀ c ∈ view.bytes, 48 ≤ c ∧ c ≤ 57) ∧
      (view.bytes.head? = some 48 → 4294967295 = 0) ∧
      decimal_value view.bytes = 4294967295 ∧
      view.bytes = literal_bytes (Nat.repr 4294967295) :=
  string8_from_u32_decimal (List.replicate 32 7) { base := 4096, offset := 0, capacity := 100 }
    4294967295 (by decide) (by decide) (by decide)

/-! ## String builder -/

theorem fragments_bytes_nil : fragments_bytes [] = [] := rfl

theorem fragments_bytes_cons (f : string8) (l : List string8) :
    fragments_bytes (f :: l) = f.bytes ++ fragments_bytes l := by
  simp [fragments_bytes]

theorem fragments_length_nil : fragments_length [] = 0 := rfl

theorem fragments_length_cons (f : string8) (l : List string8) :
    fragments_length (f :: l) = f.length + fragments_length l := by
  simp [fragments_length]

theorem fragments_bytes_append (l1 l2 : List string8) :
    fragments_bytes (l1 ++ l2) = fragments_bytes l1 ++ fragments_bytes l2 := by
  simp [fragments_bytes]

theorem fragments_length_append (l1 l2 : List string8) :
    fragments_length (l1 ++ l2) = fragments_length l1 + fragments_length l2 := by
  simp [fragments_length]

theorem fragments_bytes_length (l : List string8) (h : ∀ f ∈ l, f.wf) :
    (fragments_bytes l).length = fragments_length l := by
  induction l with
  | nil => rfl
  | cons f l ih =>
    rw [fragments_bytes_cons, fragments_length_cons, List.length_append,
      string8_bytes_length f (h f (by simp)), ih (fun g hg => h g (by simp [hg]))]

/-- An arena whose `u64` fields do not wrap accepts a push that stays strictly
below its capacity and advances by the size of the push. -/
theorem arena_push_of_lt (arena : memory_arena) (size : Nat)
    (h : arena.offset + size < arena.capacity) (hcap : arena.capacity ≤ 2 ^ 64) :
    arena_push arena size =
      some ({ address := (arena.base + arena.offset) % 2 ^ 64, bytes := List.replicate size 0 },
            { arena with offset := arena.offset + size }) := by
  have hmod : (arena.offset + size) % 2 ^ 64 = arena.offset + size :=
    Nat.mod_eq_of_lt (by omega)
  rw [arena_push_of_room arena size (by rw [hmod]; exact h), hmod]

/-- Appending a list of fragments on an arena with room for their nodes. -/
theorem string8_builder_append_all_spec :
    ∀ (rest : List string8) (builder : string8_builder) (arena : memory_arena),
      arena.offset + sizeof_string8_builder_node * rest.length < arena.capacity →
      arena.capacity ≤ 2 ^ 64 →
      string8_builder_append_all builder arena rest =
        some ({ head := builder.head ++ rest,
                nodes := if rest = [] then builder.nodes
                         else (builder.nodes + rest.length) % 2 ^ 32,
                total_string_length :=
                  if rest = [] then builder.total_string_length
                  else (builder.total_string_length + fragments_length rest) % 2 ^ 32 },
              { arena with offset := arena.offset + sizeof_string8_builder_node * rest.length }) := by
  intro rest
  induction rest with
  | nil =>
    intro builder arena _ _
    simp [string8_builder_append_all]
  | cons s rest ih =>
    intro builder arena hroom hcap
    simp only [List.length_cons, Nat.mul_succ] at hroom
    have hpush := arena_push_of_lt arena sizeof_string8_builder_node (by omega) hcap
    simp only [string8_builder_append_all, string8_builder_append, hpush]
    rw [ih { head := builder.head ++ [s], nodes := (builder.nodes + 1) % 2 ^ 32,
             total_string_length := (builder.total_string_length + s.length) % 2 ^ 32 }
      { arena with offset := arena.offset + sizeof_string8_builder_node }
      (by simp only; omega) hcap]
    simp only [List.append_assoc, List.singleton_append, List.length_cons, Nat.mul_succ,
      fragments_length_cons, reduceCtorEq, if_false, Option.some.injEq, Prod.mk.injEq,
      string8_builder.mk.injEq, memory_arena.mk.injEq, true_and, and_true]
    refine ⟨⟨?_, ?_⟩, by omega⟩
    · by_cases hr : rest = []
      · simp [hr]
      · simp only [hr, if_false]
        omega
    · by_cases hr : rest = []
      · simp [hr, fragments_length_nil]
      · simp only [hr, if_false]
        omega

/-- One `memcpy` of a well-formed fragment into a buffer that reaches `dst`. -/
theorem memcpy_at_eq (buffer : List Nat) (dst : Nat) (value : string8) :
    memcpy_at buffer dst value.data value.length =
      buffer.take dst ++ value.bytes ++ buffer.drop (dst + value.length) := rfl

/-- The copy loop of `string8_builder_finalize`, run over a whole chain of
well-formed fragments: the fragments land one behind the other from `dst` on. -/
theorem string8_builder_finalize_loop_spec :
    ∀ (chain : List string8) (buffer : List Nat) (dst : Nat), (∀ f ∈ chain, f.wf) →
      dst ≤ buffer.length →
      string8_builder_finalize_loop chain.length chain buffer dst =
        some (buffer.take dst ++ fragments_bytes chain ++
                buffer.drop (dst + fragments_length chain)) := by
  intro chain
  induction chain with
  | nil =>
    intro buffer dst _ _
    simp [string8_builder_finalize_loop, fragments_bytes_nil, fragments_length_nil]
  | cons value next ih =>
    intro buffer dst hwf hdst
    have hv : value.bytes.length = value.length := string8_bytes_length value (hwf value (by simp))
    have hlen : (buffer.take dst ++ value.bytes).length = dst + value.length := by
      simp [List.length_take, hv, hdst]
    simp only [List.length_cons, string8_builder_finalize_loop, memcpy_at_eq]
    rw [ih _ _ (fun g hg => hwf g (by simp [hg])) (by
      simp only [List.length_append, List.length_take, hv, List.length_drop]
      omega)]
    rw [fragments_bytes_cons, fragments_length_cons]
    have htake : (buffer.take dst ++ value.bytes ++ buffer.drop (dst + value.length)).take
        (dst + value.length) = buffer.take dst ++ value.bytes := by
      rw [List.take_append_of_le_length (by omega), List.take_of_length_le (by omega)]
    have hdrop : (buffer.take dst ++ value.bytes ++ buffer.drop (dst + value.length)).drop
        (dst + value.length + fragments_length next) =
        buffer.drop (dst + (value.length + fragments_length next)) := by
      rw [List.drop_append_eq_append_drop, List.drop_of_length_le (by omega), hlen]
      simp only [List.nil_append, List.drop_drop]
      congr 1
      omega
    rw [htake, hdrop]
    simp [List.append_assoc]

/-- Function `string8_builder_finalize` on a builder whose counters agree with
its chain of well-formed fragments, on an arena with room for the result. -/
theorem string8_builder_finalize_spec (builder : string8_builder) (arena : memory_arena)
    (hnodes : builder.nodes = builder.head.length)
    (htotal : builder.total_string_length = fragments_length builder.head)
    (hwf : ∀ f ∈ builder.head, f.wf)
    (hroom : arena.offset + builder.total_string_length < arena.capacity)
    (hcap : arena.capacity ≤ 2 ^ 64) :
    string8_builder_finalize builder arena =
      some ({ data := fragments_bytes builder.head, length := fragments_length builder.head },
            { arena with offset := arena.offset + fragments_length builder.head }) := by
  simp only [string8_builder_finalize, arena_push_of_lt arena _ hroom hcap, hnodes]
  rw [string8_builder_finalize_loop_spec builder.head _ 0 hwf (by omega)]
  simp [htotal]

/-- A whole builder run on an arena with room for every node and for the
result, when neither `u32` counter of the builder wraps. -/
theorem string8_build_spec (arena : memory_arena) (first : string8) (rest : List string8)
    (hwf : ∀ f ∈ first :: rest, f.wf)
    (hcount : rest.length + 1 < 2 ^ 32)
    (htotal : fragments_length (first :: rest) < 2 ^ 32)
    (hroom : arena.offset + sizeof_string8_builder_node * (rest.length + 1) +
      fragments_length (first :: rest) < arena.capacity)
    (hcap : arena.capacity ≤ 2 ^ 64) :
    string8_build arena first rest =
      some ({ data := fragments_bytes (first :: rest),
              length := fragments_length (first :: rest) },
            { arena with
              offset := arena.offset + sizeof_string8_builder_node * (rest.length + 1) +
                fragments_length (first :: rest) }) := by
  have hfl : fragments_length (first :: rest) = first.length + fragments_length rest :=
    fragments_length_cons first rest
  have hfl1 : fragments_length ([first] ++ rest) = first.length + fragments_length rest :=
    fragments_length_cons first rest
  have hl1 : ([first] ++ rest).length = rest.length + 1 := by simp
  simp only [Nat.mul_succ] at hroom
  rw [hfl] at htotal hroom
  have hpush := arena_push_of_lt arena sizeof_string8_builder_node (by omega) hcap
  simp only [string8_build, new_string8_builder, hpush]
  rw [string8_builder_append_all_spec rest
    { head := [first], nodes := 1, total_string_length := first.length }
    { arena with offset := arena.offset + sizeof_string8_builder_node }
    (by simp only; omega) hcap]
  have hn : (if rest = [] then 1 else (1 + rest.length) % 2 ^ 32) = ([first] ++ rest).length := by
    rw [hl1]
    by_cases hr : rest = []
    · simp [hr]
    · simp only [hr, if_false]
      omega
  have ht : (if rest = [] then first.length else (first.length + fragments_length rest) % 2 ^ 32) =
      fragments_length ([first] ++ rest) := by
    rw [hfl1]
    by_cases hr : rest = []
    · simp [hr, fragments_length_nil]
    · simp only [hr, if_false]
      omega
  simp only
  rw [hn, ht]
  rw [string8_builder_finalize_spec
    { head := [first] ++ rest, nodes := ([first] ++ rest).length,
      total_string_length := fragments_length ([first] ++ rest) }
    { arena with
      offset := arena.offset + sizeof_string8_builder_node +
        sizeof_string8_builder_node * rest.length }
    rfl rfl (by simpa using hwf) (by simp only [hfl1]; omega) hcap]
  simp only [List.singleton_append, hfl, Nat.mul_succ, Option.some.injEq,
    Prod.mk.injEq, memory_arena.mk.injEq, true_and, and_true]
  omega

/-- C6 (as amended): for every first fragment and every list of further
fragments, all well formed, whose number and whose summed length stay below
`2 ^ 32`, a builder run on an arena with room for the list nodes and the result
returns from `string8_builder_finalize` a view whose bytes are the bytes of
the fragments in append order and whose length is the sum of the fragment lengths. -/
theorem string8_build_concat (arena : memory_arena) (first : string8) (rest : List string8)
    (hwf : ∀ f ∈ first :: rest, f.wf)
    (hcount : rest.length + 1 < 2 ^ 32)
    (htotal : fragments_length (first :: rest) < 2 ^ 32)
    (hroom : arena.offset + sizeof_string8_builder_node * (rest.length + 1) +
      fragments_length (first :: rest) < arena.capacity)
    (hcap : arena.capacity ≤ 2 ^ 64) :
    ∃ view arena1, string8_build arena first rest = some (view, arena1) ∧ view.wf ∧
      view.bytes = first.bytes ++ (rest.map string8.bytes).flatten ∧
      view.length = first.length + (rest.map string8.length).sum ∧
      view.bytes.length = view.length := by
  refine ⟨_, _, string8_build_spec arena first rest hwf hcount htotal hroom hcap, ?_⟩
  have hlen := fragments_bytes_length (first :: rest) hwf
  have hw : ({ data := fragments_bytes (first :: rest),
               length := fragments_length (first :: rest) } : string8).wf := by
    simp only [string8.wf]
    omega
  have hb : ({ data := fragments_bytes (first :: rest),
               length := fragments_length (first :: rest) } : string8).bytes =
      fragments_bytes (first :: rest) := by
    simp only [string8.bytes]
    exact List.take_of_length_le (by omega)
  refine ⟨hw, ?_, ?_, ?_⟩
  · rw [hb, fragments_bytes_cons]
    rfl
  · simp only [fragments_length_cons]
    rfl
  · rw [hb, hlen]

/-- Witness for `string8_build_concat`: the fragments `"ab"`, `""`, `"cde"`
finalize to `"abcde"` of length 5. -/
theorem string8_build_concat_witness :
    ∃ view arena1,
      string8_build { base := 4096, offset := 0, capacity := 1024 } (string8_static "ab")
          [string8_static "", string8_static "cde"] = some (view, arena1) ∧ view.wf ∧
      view.bytes = (string8_static "ab").bytes ++
        ([string8_static "", string8_static "cde"].map string8.bytes).flatten ∧
      view.length = (string8_static "ab").length +
        ([string8_static "", string8_static "cde"].map string8.length).sum ∧
      view.bytes.length = view.length :=
  string8_build_concat { base := 4096, offset := 0, capacity := 1024 } (string8_static "ab")
    [string8_static "", string8_static "cde"] (by decide) (by decide) (by decide) (by decide)
    (by decide)

/-- C6 (as stated) fails when the `u32` total wraps: a well-formed first
fragment of `2 ^ 32 - 1` bytes followed by the one-byte fragment `"a"`, on an
arena of `2 ^ 40` bytes, finalizes to a view of length 0, although the fragment
lengths sum to `2 ^ 32`. -/
theorem string8_build_concat_counterexample :
    ({ data := List.replicate 4294967295 97, length := 4294967295 } : string8).wf ∧
      ∃ view arena1,
        string8_build { base := 4096, offset := 0, capacity := 2 ^ 40 }
            { data := List.replicate 4294967295 97, length := 4294967295 }
            [string8_static "a"] = some (view, arena1) ∧
        view.length = 0 ∧
        ({ data := List.replicate 4294967295 97, length := 4294967295 } : string8).length +
          ([string8_static "a"].map string8.length).sum = 4294967296 := by
  refine ⟨?_, _, _, rfl, rfl, by decide⟩
  show 4294967295 ≤ (List.replicate 4294967295 97).length
  rw [List.length_replicate]

/-! ## Path normalisation in `main` -/

/-- The lookup path: `"/index.html"` for the path `"/"`, the path itself
otherwise. -/
theorem main_lookup_path_spec (request : http_request) (hwf : request.path.wf) :
    main_lookup_path request =
      if request.path.bytes = literal_bytes "/" then string8_static "/index.html"
      else request.path := by
  simp only [main_lookup_path]
  by_cases h : request.path.bytes = literal_bytes "/"
  · have := (string8_equal_to_iff request.path (string8_static "/") hwf
      (string8_static_wf _)).mpr (by rw [string8_static_bytes]; exact h)
    simp [this, h]
  · have : string8_equal_to request.path (string8_static "/") = false := by
      cases hq : string8_equal_to request.path (string8_static "/") with
      | false => rfl
      | true =>
        have := (string8_equal_to_iff request.path (string8_static "/") hwf
          (string8_static_wf _)).mp hq
        rw [string8_static_bytes] at this
        exact absurd this h
    simp [this, h]

/-- C7: the path used for the file lookup and the classification is
`"/index.html"` when the parsed path is exactly `"/"` and is the parsed path
unchanged otherwise; so a request `"GET / HTTP/1.1\r\n"` and a request
`"GET /index.html HTTP/1.1\r\n"`, whatever follows the request line, resolve to
the same lookup path bytes, `"/index.html"`. -/
theorem main_lookup_path_index (request : http_request) (hwf : request.path.wf) :
    (request.path.bytes = literal_bytes "/" →
        main_lookup_path request = string8_static "/index.html" ∧
        (main_lookup_path request).bytes = literal_bytes "/index.html") ∧
      (request.path.bytes ≠ literal_bytes "/" → main_lookup_path request = request.path) ∧
      (∀ (r1 r2 : string8) (t1 t2 : List Nat), r1.wf → r2.wf →
        r1.bytes = literal_bytes "GET / HTTP/1.1\r\n" ++ t1 →
        r2.bytes = literal_bytes "GET /index.html HTTP/1.1\r\n" ++ t2 →
        (main_lookup_path (parse_http_request r1)).bytes = literal_bytes "/index.html" ∧
        (main_lookup_path (parse_http_request r2)).bytes = literal_bytes "/index.html") := by
  refine ⟨?_, ?_, ?_⟩
  · intro h
    rw [main_lookup_path_spec request hwf, if_pos h]
    exact ⟨rfl, string8_static_bytes _⟩
  · intro h
    rw [main_lookup_path_spec request hwf, if_neg h]
  · intro r1 r2 t1 t2 h1 h2 hb1 hb2
    have hp1 := parse_http_request_spec r1 (literal_bytes "/") t1 h1
      (by rw [hb1]; rfl) (by decide)
    have hp2 := parse_http_request_spec r2 (literal_bytes "/index.html") t2 h2
      (by rw [hb2]; rfl) (by decide)
    have hw1 : (parse_http_request r1).path.wf := by
      have hl := congrArg List.length hp1.2
      rw [hp1.1] at hl ⊢
      simp only [string8.bytes, List.length_take, List.length_drop] at hl
      simp only [string8.wf, List.length_drop]
      omega
    have hw2 : (parse_http_request r2).path.wf := by
      have hl := congrArg List.length hp2.2
      rw [hp2.1] at hl ⊢
      simp only [string8.bytes, List.length_take, List.length_drop] at hl
      simp only [string8.wf, List.length_drop]
      omega
    constructor
    · rw [main_lookup_path_spec _ hw1, if_pos hp1.2]
      exact string8_static_bytes _
    · rw [main_lookup_path_spec _ hw2, if_neg (by rw [hp2.2]; decide), hp2.2]

/-- Witness for `main_lookup_path_index`: the request parsed from
`"GET / HTTP/1.1\r\n"`. -/
theorem main_lookup_path_index_witness :
    (main_lookup_path
        (parse_http_request (string8.of_bytes (literal_bytes "GET / HTTP/1.1\r\n")))).bytes =
      literal_bytes "/index.html" :=
  ((main_lookup_path_index
      (parse_http_request (string8.of_bytes (literal_bytes "GET / HTTP/1.1\r\n")))
      (by decide)).1 (by decide)).2

/-! ## Response assembly in `main` -/

/-- One `string8_builder_append` on an arena with room for the node. -/
theorem string8_builder_append_spec (builder : string8_builder) (arena : memory_arena)
    (s : string8) (hroom : arena.offset + sizeof_string8_builder_node < arena.capacity)
    (hcap : arena.capacity ≤ 2 ^ 64) :
    string8_builder_append builder arena s =
      some ({ head := builder.head ++ [s]
              nodes := (builder.nodes + 1) % 2 ^ 32
              total_string_length := (builder.total_string_length + s.length) % 2 ^ 32 },
            { arena with offset := arena.offset + sizeof_string8_builder_node }) := by
  simp only [string8_builder_append, arena_push_of_lt arena _ hroom hcap]

theorem main_content_type_value_wf (content_type : http_content_type) :
    (main_content_type_value content_type).wf := by
  cases content_type <;> exact string8_static_wf _

theorem main_content_type_value_bytes (content_type : http_content_type) :
    (main_content_type_value content_type).bytes = content_type_bytes content_type := by
  cases content_type <;> exact string8_static_bytes _

theorem main_content_type_value_length (content_type : http_content_type) :
    (main_content_type_value content_type).length ≤ 30 := by
  cases content_type <;> decide

/-- The header block of `main` on a scratch arena with 512 free bytes. -/
theorem main_response_header_spec (temp_buffer : List Nat) (scratch : memory_arena)
    (path : string8) (n : Nat) (htb : temp_buffer.length = 32) (hn : n < 2 ^ 32)
    (hroom : scratch.offset + 512 ≤ scratch.capacity) (hcap : scratch.capacity ≤ 2 ^ 64) :
    ∃ junk : List Nat,
      main_response_header temp_buffer scratch path n =
        some ({ data := fragments_bytes
                  [string8_static
                     ("HTTP/1.1 200 OK\r\n" ++
                      "Cross-Origin-Opener-Policy: same-origin\r\n" ++
                      "Cross-Origin-Embedder-Policy: require-corp\r\n"),
                   string8_static "Content-Type: ",
                   main_content_type_value (parse_content_type path),
                   string8_static "\r\n",
                   string8_static "Content-Length: ",
                   { data := decimal_digits (n + 1) n ++ junk,
                     length := (decimal_digits (n + 1) n).length },
                   string8_static "\r\n",
                   string8_static "\r\n"],
                length := 138 + (main_content_type_value (parse_content_type path)).length +
                  (decimal_digits (n + 1) n).length },
              { scratch with
                offset := scratch.offset + 346 +
                  (main_content_type_value (parse_content_type path)).length +
                  (decimal_digits (n + 1) n).length }) := by
  have hd : (decimal_digits (n + 1) n).length ≤ 10 :=
    decimal_digits_length_le (n + 1) n 9 (by omega)
  have hm := main_content_type_value_length (parse_content_type path)
  have hnode : sizeof_string8_builder_node = 24 := rfl
  have hP : (string8_static
      ("HTTP/1.1 200 OK\r\n" ++
       "Cross-Origin-Opener-Policy: same-origin\r\n" ++
       "Cross-Origin-Embedder-Policy: require-corp\r\n")).length = 102 := by decide
  have hCT : (string8_static "Content-Type: ").length = 14 := by decide
  have hNL : (string8_static "\r\n").length = 2 := by decide
  have hCL : (string8_static "Content-Length: ").length = 16 := by decide
  refine ⟨(temp_buffer.drop 16).take (16 - (decimal_digits (n + 1) n).length), ?_⟩
  simp only [main_response_header, new_string8_builder]
  rw [arena_push_of_lt scratch _ (by omega) hcap]
  simp only
  rw [string8_builder_append_spec _ _ _ (by simp only; omega) (by exact hcap)]
  simp only
  rw [string8_builder_append_spec _ _ _ (by simp only; omega) (by exact hcap)]
  simp only
  rw [string8_builder_append_spec _ _ _ (by simp only; omega) (by exact hcap)]
  simp only
  rw [string8_builder_append_spec _ _ _ (by simp only; omega) (by exact hcap)]
  simp only
  rw [string8_from_u32_spec temp_buffer _ n htb hn (by simp only; omega)]
  simp only
  rw [string8_builder_append_spec _ _ _ (by simp only; omega) (by exact hcap)]
  simp only
  rw [string8_builder_append_spec _ _ _ (by simp only; omega) (by exact hcap)]
  simp only
  rw [string8_builder_append_spec _ _ _ (by simp only; omega) (by exact hcap)]
  simp only
  rw [string8_builder_finalize_spec _ _ (by simp) ?_ ?_ ?_ (by exact hcap)]
  · simp only [List.cons_append, List.nil_append, fragments_length_cons, fragments_length_nil,
      hP, hCT, hNL, hCL, hnode, Option.some.injEq, Prod.mk.injEq, string8.mk.injEq,
      memory_arena.mk.injEq, true_and, and_true]
    constructor <;> omega
  · simp only [List.cons_append, List.nil_append, fragments_length_cons, fragments_length_nil,
      hP, hCT, hNL, hCL]
    omega
  · intro f hf
    simp only [List.cons_append, List.nil_append, List.mem_cons, List.mem_singleton,
      List.not_mem_nil, or_false] at hf
    rcases hf with rfl | rfl | rfl | rfl | rfl | rfl | rfl | rfl
    · exact string8_static_wf _
    · exact string8_static_wf _
    · exact main_content_type_value_wf _
    · exact string8_static_wf _
    · exact string8_static_wf _
    · simp [string8.wf]
    · exact string8_static_wf _
    · exact string8_static_wf _
  · simp only [hP, hCT, hNL, hCL, hnode]
    omega

/-- C8: for every lookup path and every `u32` mapped-file length `n`, the header
block that `main` assembles through the string builder on a scratch arena with
512 free bytes is exactly the `200 OK` status line with the two cross-origin
headers, `"Content-Type: "` with the value of the classification of the path
(`application/octet-stream` for `DEFAULT` and for `CSS`), `"\r\n"`,
`"Content-Length: "` with the decimal numeral of `n`, and `"\r\n\r\n"`. -/
theorem main_response_header_bytes (temp_buffer : List Nat) (scratch : memory_arena)
    (path : string8) (n : Nat) (htb : temp_buffer.length = 32) (hn : n < 2 ^ 32)
    (hroom : scratch.offset + 512 ≤ scratch.capacity) (hcap : scratch.capacity ≤ 2 ^ 64) :
    ∃ view arena1, main_response_header temp_buffer scratch path n = some (view, arena1) ∧
      view.wf ∧
      view.bytes =
        literal_bytes
            ("HTTP/1.1 200 OK\r\nCross-Origin-Opener-Policy: same-origin\r\n" ++
             "Cross-Origin-Embedder-Policy: require-corp\r\n") ++
          literal_bytes "Content-Type: " ++ content_type_bytes (parse_content_type path) ++
          literal_bytes "\r\n" ++
          literal_bytes "Content-Length: " ++ literal_bytes (Nat.repr n) ++
          literal_bytes "\r\n\r\n" := by
  obtain ⟨junk, hspec⟩ := main_response_header_spec temp_buffer scratch path n htb hn hroom hcap
  refine ⟨_, _, hspec, ?_⟩
  have hnum : ({ data := decimal_digits (n + 1) n ++ junk,
                 length := (decimal_digits (n + 1) n).length } : string8).bytes =
      decimal_digits (n + 1) n := by
    simp [string8.bytes]
  have hmlen := string8_bytes_length _ (main_content_type_value_wf (parse_content_type path))
  have hP : (literal_bytes
      ("HTTP/1.1 200 OK\r\n" ++
       "Cross-Origin-Opener-Policy: same-origin\r\n" ++
       "Cross-Origin-Embedder-Policy: require-corp\r\n")).length = 102 := by decide
  have hCT : (literal_bytes "Content-Type: ").length = 14 := by decide
  have hNL : (literal_bytes "\r\n").length = 2 := by decide
  have hCL : (literal_bytes "Content-Length: ").length = 16 := by decide
  have hdata : (fragments_bytes
      [string8_static
         ("HTTP/1.1 200 OK\r\n" ++
          "Cross-Origin-Opener-Policy: same-origin\r\n" ++
          "Cross-Origin-Embedder-Policy: require-corp\r\n"),
       string8_static "Content-Type: ",
       main_content_type_value (parse_content_type path),
       string8_static "\r\n",
       string8_static "Content-Length: ",
       { data := decimal_digits (n + 1) n ++ junk,
         length := (decimal_digits (n + 1) n).length },
       string8_static "\r\n",
       string8_static "\r\n"]).length =
      138 + (main_content_type_value (parse_content_type path)).length +
        (decimal_digits (n + 1) n).length := by
    simp only [fragments_bytes_cons, fragments_bytes_nil, string8_static_bytes, hnum,
      List.length_append, List.length_nil, hP, hCT, hNL, hCL, hmlen]
    omega
  have hrn : literal_bytes "\r\n\r\n" = literal_bytes "\r\n" ++ literal_bytes "\r\n" := by
    decide
  have hpre : literal_bytes
      ("HTTP/1.1 200 OK\r\nCross-Origin-Opener-Policy: same-origin\r\n" ++
       "Cross-Origin-Embedder-Policy: require-corp\r\n") =
      literal_bytes
        ("HTTP/1.1 200 OK\r\n" ++
         "Cross-Origin-Opener-Policy: same-origin\r\n" ++
         "Cross-Origin-Embedder-Policy: require-corp\r\n") := by
    decide
  constructor
  · simp only [string8.wf]
    omega
  · simp only [string8.bytes]
    rw [List.take_of_length_le (by omega)]
    simp only [fragments_bytes_cons, fragments_bytes_nil, string8_static_bytes, hnum,
      main_content_type_value_bytes, literal_bytes_repr, hrn, hpre, List.append_nil,
      List.append_assoc]

/-- Witness for `main_response_header_bytes`: the path `"/main.css"` and a file
of 1234 bytes on an arena of 4096 bytes. -/
theorem main_response_header_bytes_witness :
    ∃ view arena1,
      main_response_header (List.replicate 32 0) { base := 4096, offset := 2048, capacity := 4096 }
          (string8_static "/main.css") 1234 = some (view, arena1) ∧
      view.wf ∧
      view.bytes =
        literal_bytes
            ("HTTP/1.1 200 OK\r\nCross-Origin-Opener-Policy: same-origin\r\n" ++
             "Cross-Origin-Embedder-Policy: require-corp\r\n") ++
          literal_bytes "Content-Type: " ++
          content_type_bytes (parse_content_type (string8_static "/main.css")) ++
          literal_bytes "\r\n" ++
          literal_bytes "Content-Length: " ++ literal_bytes (Nat.repr 1234) ++
          literal_bytes "\r\n\r\n" :=
  main_response_header_bytes (List.replicate 32 0)
    { base := 4096, offset := 2048, capacity := 4096 } (string8_static "/main.css") 1234
    (by decide) (by decide) (by decide) (by decide)

/-! ## The not-found response -/

set_option maxRecDepth 100000 in
/-- C9: the fixed not-found response starts with the status line
`"HTTP/1.1 404 NotFound\r\n"`, carries the header `Content-Length: 50` as the
last line before the blank line, and the body behind the blank line is the
50-byte HTML page, so the literal content length equals the body length. -/
theorem main_not_found_response_content_length :
    main_not_found_response.wf ∧
      literal_bytes "HTTP/1.1 404 NotFound\r\n" <+: main_not_found_response.bytes ∧
      main_not_found_response.bytes =
        literal_bytes "HTTP/1.1 404 NotFound\r\n" ++
          literal_bytes "Content-Type: text/html; charset=UTF-8\r\n" ++
          literal_bytes "Content-Length: 50\r\n" ++
          literal_bytes "\r\n" ++
          literal_bytes "<!DOCTYPE html><html><h1>404 Not Found</h1></html>" ∧
      bytes_after_blank_line main_not_found_response.bytes =
        literal_bytes "<!DOCTYPE html><html><h1>404 Not Found</h1></html>" ∧
      (bytes_after_blank_line main_not_found_response.bytes).length = 50 ∧
      decimal_value (literal_bytes "50") = 50 := by
  decide

/-! ## Arena allocator -/

/-- C10 (as amended): `arena_push_aligned`, and with it `arena_push`, returns a
region exactly when `arena.offset + size`, formed in unsigned 64-bit arithmetic
as the assertion forms it, is strictly below `arena.capacity`; when the sum
stays within 64 bits that is `arena.offset + size < arena.capacity`, so an
allocation that needs less than the remaining capacity succeeds and one that
fills it exactly, or needs more, ends in the fatal assertion. -/
theorem arena_push_aligned_returns_iff (arena : memory_arena) (size alignment : Nat) :
    ((arena_push_aligned arena size alignment).isSome ↔
        (arena.offset + size) % 2 ^ 64 < arena.capacity) ∧
      ((arena_push arena size).isSome ↔ (arena.offset + size) % 2 ^ 64 < arena.capacity) ∧
      (arena.offset + size < 2 ^ 64 →
        ((arena_push_aligned arena size alignment).isSome ↔
          arena.offset + size < arena.capacity) ∧
        (arena.offset + size = arena.capacity → arena_push_aligned arena size alignment = none)) := by
  have h1 : (arena_push_aligned arena size alignment).isSome ↔
      (arena.offset + size) % 2 ^ 64 < arena.capacity := by
    unfold arena_push_aligned
    split <;> simp_all
  have h2 : (arena_push arena size).isSome ↔ (arena.offset + size) % 2 ^ 64 < arena.capacity := by
    unfold arena_push arena_push_aligned
    split <;> simp_all
  refine ⟨h1, h2, ?_⟩
  intro hsum
  have hmod : (arena.offset + size) % 2 ^ 64 = arena.offset + size := Nat.mod_eq_of_lt hsum
  rw [hmod] at h1
  refine ⟨h1, ?_⟩
  intro heq
  have hnot : ¬ (arena_push_aligned arena size alignment).isSome := by
    rw [h1]
    omega
  cases hr : arena_push_aligned arena size alignment with
  | none => rfl
  | some r => rw [hr] at hnot; simp at hnot

/-- Witness for `arena_push_aligned_returns_iff`: 16 bytes from an empty arena
of 32 bytes. -/
theorem arena_push_aligned_returns_iff_witness :
    ((arena_push_aligned { base := 4096, offset := 0, capacity := 32 } 16 16).isSome ↔
        0 + 16 < 32) ∧
      (0 + 16 = 32 →
        arena_push_aligned { base := 4096, offset := 0, capacity := 32 } 16 16 = none) :=
  (arena_push_aligned_returns_iff { base := 4096, offset := 0, capacity := 32 } 16 16).2.2
    (by decide)

/-- C10 (as stated) fails: an allocation of 16 bytes from an empty arena of
capacity 16 satisfies `offset + size <= capacity` and exactly fills the arena,
yet `arena_push_aligned` ends in the fatal assertion, which demands
`offset + size < capacity`. -/
theorem arena_push_aligned_exact_fill_counterexample :
    (0 + 16 ≤ 16) ∧
      arena_push_aligned { base := 4096, offset := 0, capacity := 16 } 16 16 = none ∧
      ¬ ((arena_push_aligned { base := 4096, offset := 0, capacity := 16 } 16 16).isSome ↔
          0 + 16 ≤ 16) := by
  decide

/-- Collecting from a well-formed view yields well-formed views that are no
longer than the view was. -/
theorem string8_pop_and_collect_string_wf (s : string8) (t : Nat) (allow : Bool) (hs : s.wf) :
    (string8_pop_and_collect_string s t allow).1.wf ∧
      (string8_pop_and_collect_string s t allow).2.wf ∧
      (string8_pop_and_collect_string s t allow).1.length ≤ s.length ∧
      (string8_pop_and_collect_string s t allow).2.length ≤ s.length := by
  by_cases hne : s.length = 0
  · rw [string8_pop_and_collect_string_empty s t allow hne]
    exact ⟨null_string_wf, null_string_wf, Nat.zero_le _, Nat.zero_le _⟩
  · rw [string8_pop_and_collect_string_spec s t allow hs hne]
    have hk : (s.bytes.takeWhile (collect_continues t)).length ≤ s.length := by
      rw [← string8_bytes_length s hs]
      exact (List.takeWhile_sublist _).length_le
    split
    · exact ⟨null_string_wf, null_string_wf, Nat.zero_le _, Nat.zero_le _⟩
    · refine ⟨?_, string8_wf_drop _ _ _ hs, hk, Nat.sub_le _ _⟩
      simp only [string8.wf] at hs ⊢
      omega

/-- Popping from a well-formed view yields a well-formed view; a non-empty view
becomes one byte shorter. -/
theorem string8_pop_char_wf (s : string8) (hs : s.wf) :
    (string8_pop_char s).2.wf ∧ (string8_pop_char s).2.length = s.length - 1 := by
  by_cases h : s.length = 0
  · simp only [string8_pop_char, h, if_true]
    exact ⟨hs, trivial⟩
  · simp only [string8_pop_char, h, if_false, string8.wf, List.length_tail, and_true]
    simp only [string8.wf] at hs
    omega

/-- A budget larger than `file_name.length + 1` changes nothing: the extension
loop has stopped by itself before the budget is used up. -/
theorem parse_content_type_loop_budget :
    ∀ (fuel : Nat) (file_name ext : string8), file_name.wf → file_name.length < fuel →
      parse_content_type_loop fuel file_name ext =
        parse_content_type_loop (file_name.length + 1) file_name ext := by
  intro fuel
  induction fuel using Nat.strong_induction_on with
  | _ fuel ih =>
    intro s ext hs hf
    obtain ⟨fuel1, rfl⟩ : ∃ f, fuel = f + 1 := ⟨fuel - 1, by omega⟩
    simp only [parse_content_type_loop]
    split
    · next hdot =>
      have hlen : s.length ≠ 0 := by
        intro h0
        simp [string8_pop_char, h0] at hdot
      have hp := string8_pop_char_wf s hs
      have hc := string8_pop_and_collect_string_wf (string8_pop_char s).2 46 true hp.1
      have hlt : (string8_pop_and_collect_string (string8_pop_char s).2 46 true).2.length <
          s.length := by omega
      rw [ih fuel1 (by omega) _ _ hc.2.1 (by omega), ih s.length (by omega) _ _ hc.2.1 hlt]
    · rfl

/-! ## Sequences of allocations -/

/-- What a returning `arena_push_aligned` hands back, in all cases: the region at
the old offset, `size` zero bytes, and the offset moved on in `u64` arithmetic;
the parameter `alignment` plays no part. -/
theorem arena_push_aligned_some (arena : memory_arena) (size alignment : Nat)
    (region : arena_region) (arena1 : memory_arena)
    (h : arena_push_aligned arena size alignment = some (region, arena1)) :
    (arena.offset + size) % 2 ^ 64 < arena.capacity ∧
      region =
        { address := (arena.base + arena.offset) % 2 ^ 64, bytes := List.replicate size 0 } ∧
      arena1 = { arena with offset := (arena.offset + size) % 2 ^ 64 } := by
  unfold arena_push_aligned at h
  split at h
  · next hlt =>
    simp only [Option.some.injEq, Prod.mk.injEq] at h
    exact ⟨hlt, h.1.symm, h.2.symm⟩
  · simp at h

theorem arena_push_all_append (arena : memory_arena) (l1 l2 : List Nat) :
    arena_push_all arena (l1 ++ l2) =
      match arena_push_all arena l1 with
      | none => none
      | some arena1 => arena_push_all arena1 l2 := by
  induction l1 generalizing arena with
  | nil => simp [arena_push_all]
  | cons size rest ih =>
    simp only [List.cons_append, arena_push_all]
    cases h : arena_push arena size with
    | none => rfl
    | some r => exact ih r.2

/-- A returning sequence of allocations on an arena that cannot wrap: the offset
has advanced by the sum of the sizes and is strictly below the capacity unless
nothing was allocated. -/
theorem arena_push_all_some (sizes : List Nat) :
    ∀ (arena arena1 : memory_arena), arena.capacity + 2 ^ 32 ≤ 2 ^ 64 →
      arena.offset ≤ arena.capacity → (∀ s ∈ sizes, s < 2 ^ 32) →
      arena_push_all arena sizes = some arena1 →
      arena1.offset = arena.offset + sizes.sum ∧ arena1.capacity = arena.capacity ∧
        arena1.base = arena.base ∧ arena1.offset ≤ arena1.capacity ∧
        (sizes ≠ [] → arena1.offset < arena1.capacity) := by
  induction sizes with
  | nil =>
    intro arena arena1 _ hinv _ h
    simp only [arena_push_all, Option.some.injEq] at h
    subst h
    simp [hinv]
  | cons size rest ih =>
    intro arena arena1 hcap hinv hsz h
    have hs : size < 2 ^ 32 := hsz size (by simp)
    simp only [arena_push_all] at h
    cases hp : arena_push arena size with
    | none => rw [hp] at h; simp at h
    | some r =>
      obtain ⟨region, arena2⟩ := r
      rw [hp] at h
      simp only at h
      obtain ⟨hlt, _, ha2⟩ := arena_push_aligned_some arena size 16 region arena2 hp
      have hmod : (arena.offset + size) % 2 ^ 64 = arena.offset + size :=
        Nat.mod_eq_of_lt (by omega)
      rw [hmod] at hlt ha2
      subst ha2
      have hrec := ih _ arena1 (by simpa using hcap) (by simp only; omega)
        (fun s hsm => hsz s (by simp [hsm])) h
      simp only at hrec
      simp only [List.sum_cons]
      refine ⟨by omega, hrec.2.1, hrec.2.2.1, hrec.2.2.2.1, fun _ => ?_⟩
      by_cases hr : rest = []
      · subst hr
        simp only [arena_push_all, Option.some.injEq] at h
        subst h
        simpa using hlt
      · exact hrec.2.2.2.2 hr

/-- A sequence of allocations that stays strictly below the capacity of an arena
that cannot wrap returns. -/
theorem arena_push_all_of_lt (sizes : List Nat) :
    ∀ (arena : memory_arena), arena.capacity ≤ 2 ^ 64 →
      arena.offset + sizes.sum < arena.capacity →
      arena_push_all arena sizes = some { arena with offset := arena.offset + sizes.sum } := by
  induction sizes with
  | nil => intro arena _ _; simp [arena_push_all]
  | cons size rest ih =>
    intro arena hcap hroom
    simp only [List.sum_cons] at hroom
    simp only [arena_push_all, arena_push_of_lt arena size (by omega) hcap]
    rw [ih { arena with offset := arena.offset + size } (by exact hcap) (by simp only; omega)]
    simp [Nat.add_assoc]

/-- C11 (as amended): on an arena with `offset <= capacity` whose capacity leaves
room for one more `u32` below `2 ^ 64` (so that `offset + size` cannot wrap),
every sequence of `u32` allocation requests that returns leaves
`offset <= capacity` and has advanced the offset by exactly the requested
sizes, a single returning allocation by exactly its size.  A non-empty sequence
returns exactly when the offset plus its sizes stays strictly below the
capacity, so the request with which the sum reaches the capacity already ends
in the fatal failure, and after a returning sequence every further allocation
that would reach or exceed the capacity ends in the fatal failure instead of
overflowing. -/
theorem arena_push_all_invariant (arena : memory_arena) (sizes : List Nat)
    (hinv : arena.offset ≤ arena.capacity) (hcap : arena.capacity + 2 ^ 32 ≤ 2 ^ 64)
    (hsz : ∀ s ∈ sizes, s < 2 ^ 32) :
    (∀ arena1, arena_push_all arena sizes = some arena1 →
        arena1.offset ≤ arena1.capacity ∧ arena1.offset = arena.offset + sizes.sum ∧
        arena1.capacity = arena.capacity ∧ arena1.base = arena.base) ∧
      (∀ size alignment region arena1, size < 2 ^ 32 →
        arena_push_aligned arena size alignment = some (region, arena1) →
        arena1.offset = arena.offset + size ∧ arena1.offset ≤ arena1.capacity ∧
        arena1.capacity = arena.capacity) ∧
      (sizes ≠ [] →
        ((arena_push_all arena sizes).isSome ↔ arena.offset + sizes.sum < arena.capacity)) ∧
      (sizes ≠ [] → arena.capacity ≤ arena.offset + sizes.sum →
        arena_push_all arena sizes = none) ∧
      (∀ arena1 extra, arena_push_all arena sizes = some arena1 → extra < 2 ^ 32 →
        arena.capacity ≤ arena.offset + sizes.sum + extra →
        arena_push arena1 extra = none ∧ arena_push_all arena (sizes ++ [extra]) = none) := by
  have hiff : sizes ≠ [] →
      ((arena_push_all arena sizes).isSome ↔ arena.offset + sizes.sum < arena.capacity) := by
    intro hne
    constructor
    · intro h
      cases hp : arena_push_all arena sizes with
      | none => rw [hp] at h; simp at h
      | some arena1 =>
        have hs := arena_push_all_some sizes arena arena1 hcap hinv hsz hp
        have := hs.2.2.2.2 hne
        omega
    · intro hroom
      rw [arena_push_all_of_lt sizes arena (by omega) hroom]
      rfl
  refine ⟨?_, ?_, hiff, ?_, ?_⟩
  · intro arena1 h
    have := arena_push_all_some sizes arena arena1 hcap hinv hsz h
    exact ⟨this.2.2.2.1, this.1, this.2.1, this.2.2.1⟩
  · intro size alignment region arena1 hs h
    obtain ⟨hlt, _, ha1⟩ := arena_push_aligned_some arena size alignment region arena1 h
    have hmod : (arena.offset + size) % 2 ^ 64 = arena.offset + size :=
      Nat.mod_eq_of_lt (by omega)
    rw [hmod] at hlt ha1
    subst ha1
    exact ⟨rfl, by simp only; omega, rfl⟩
  · intro hne hfull
    cases hp : arena_push_all arena sizes with
    | none => rfl
    | some arena1 =>
      have := (hiff hne).mp (by rw [hp]; rfl)
      omega
  · intro arena1 extra h hext hfull
    have hs := arena_push_all_some sizes arena arena1 hcap hinv hsz h
    have hfail : ¬ (arena1.offset + extra) % 2 ^ 64 < arena1.capacity := by
      have hmod : (arena1.offset + extra) % 2 ^ 64 = arena1.offset + extra :=
        Nat.mod_eq_of_lt (by omega)
      rw [hmod]
      omega
    have hpush : arena_push arena1 extra = none := by
      simp only [arena_push, arena_push_aligned, hfail, if_false]
    refine ⟨hpush, ?_⟩
    rw [arena_push_all_append, h]
    simp only [arena_push_all, hpush]

/-- Witness for `arena_push_all_invariant`: on a fresh arena of 64 bytes the
requests 32 and 31 return and leave the offset at 63, after which a request of
one byte ends in the fatal failure; the requests 32 and 32, which sum to the
capacity, do not return. -/
theorem arena_push_all_invariant_witness :
    ((arena_push_all { base := 4096, offset := 0, capacity := 64 } [32, 31]).isSome ↔
        0 + [32, 31].sum < 64) ∧
      (arena_push { base := 4096, offset := 63, capacity := 64 } 1 = none ∧
        arena_push_all { base := 4096, offset := 0, capacity := 64 } ([32, 31] ++ [1]) = none) ∧
      arena_push_all { base := 4096, offset := 0, capacity := 64 } [32, 32] = none :=
  ⟨(arena_push_all_invariant { base := 4096, offset := 0, capacity := 64 } [32, 31]
      (by decide) (by decide) (by decide)).2.2.1 (by decide),
   (arena_push_all_invariant { base := 4096, offset := 0, capacity := 64 } [32, 31]
      (by decide) (by decide) (by decide)).2.2.2.2
      { base := 4096, offset := 63, capacity := 64 } 1 (by decide) (by decide) (by decide),
   (arena_push_all_invariant { base := 4096, offset := 0, capacity := 64 } [32, 32]
      (by decide) (by decide) (by decide)).2.2.2.1 (by decide) (by decide)⟩

/-- C11 (as stated) fails in two places.  The sizes 32 and 32 requested from a
fresh arena of capacity 64 sum to exactly its capacity, but it is the second of
these requests, not a further one, that ends in the fatal failure: the offset
never gets beyond 32.  And where the `u64` sum wraps, on the descriptor with
`offset = capacity = 2 ^ 64 - 1` at base 4096, which meets the only hypothesis of
the statement although no mapping of that size exists, a request of one byte
passes the assertion, returns the wrapped pointer 4095 and leaves the offset at
0 instead of advancing it by one. -/
theorem arena_push_all_invariant_counterexample :
    ([32, 32].sum = 64 ∧
        arena_push_all { base := 4096, offset := 0, capacity := 64 } [32] =
          some { base := 4096, offset := 32, capacity := 64 } ∧
        arena_push { base := 4096, offset := 32, capacity := 64 } 32 = none ∧
        arena_push_all { base := 4096, offset := 0, capacity := 64 } [32, 32] = none) ∧
      ((18446744073709551615 : Nat) ≤ 18446744073709551615 ∧
        arena_push_aligned
            { base := 4096, offset := 18446744073709551615, capacity := 18446744073709551615 }
            1 16 =
          some ({ address := 4095, bytes := [0] },
                { base := 4096, offset := 0, capacity := 18446744073709551615 }) ∧
        (0 : Nat) ≠ 18446744073709551615 + 1) := by
  decide

/-! ## Contracts of the view operations -/

/-- C12: for all well-formed views `s` and `l`, `string8_pop_expected_string`
leaves the remainder of `s` behind its first `l.length` bytes when the bytes of
`l` are a prefix of those of `s`, and the null view, of length 0, in every other
case: when `s` is shorter than `l`, and when `s` differs from `l` at any position
below `l.length`, whatever the later bytes are. -/
theorem string8_pop_expected_string_contract (s l : string8) (hs : s.wf) (hl : l.wf) :
    (l.bytes <+: s.bytes →
        string8_pop_expected_string s l =
          { data := s.data.drop l.length, length := s.length - l.length } ∧
        (string8_pop_expected_string s l).bytes = s.bytes.drop l.length) ∧
      (¬ l.bytes <+: s.bytes →
        string8_pop_expected_string s l = null_string ∧
        (string8_pop_expected_string s l).length = 0) ∧
      (s.length < l.length → string8_pop_expected_string s l = null_string) ∧
      (∀ i, i < l.length → s.bytes[i]? ≠ l.bytes[i]? →
        string8_pop_expected_string s l = null_string) := by
  have hspec := string8_pop_expected_string_spec s l hs hl
  have hnot : ¬ l.bytes <+: s.bytes → string8_pop_expected_string s l = null_string := by
    intro h
    rw [hspec, if_neg h]
  refine ⟨?_, ?_, ?_, ?_⟩
  · intro h
    rw [hspec, if_pos h]
    refine ⟨rfl, ?_⟩
    rw [string8_bytes_drop, string8_ext_fields]
  · intro h
    rw [hnot h]
    exact ⟨rfl, rfl⟩
  · intro hlt
    apply hnot
    intro hp
    have := hp.length_le
    rw [string8_bytes_length s hs, string8_bytes_length l hl] at this
    omega
  · intro i hi hne
    apply hnot
    intro hp
    obtain ⟨rest, hrest⟩ := hp
    apply hne
    rw [← hrest, List.getElem?_append_left (by rw [string8_bytes_length l hl]; exact hi)]

/-- Witness for `string8_pop_expected_string_contract`: `"GET "` popped from
`"GET /"` leaves `"/"`. -/
theorem string8_pop_expected_string_contract_witness :
    (string8_pop_expected_string (string8.of_bytes (literal_bytes "GET /"))
        (string8_static "GET ")).bytes = literal_bytes "/" :=
  ((string8_pop_expected_string_contract (string8.of_bytes (literal_bytes "GET /"))
      (string8_static "GET ") (by decide) (by decide)).1 (by decide)).2

/-- C13 (as amended): for every well-formed view in which the terminator occurs
with no zero byte in front of its first occurrence, and for either value of
`allow_end_of_string` (set, if the terminator is itself the zero byte),
`string8_pop_and_collect_string` returns exactly the bytes in front of the first
terminator and leaves the view at that terminator. -/
theorem string8_pop_and_collect_string_terminator (s : string8) (t : Nat) (allow : Bool)
    (pre post : List Nat) (hs : s.wf) (hb : s.bytes = pre ++ t :: post)
    (hpre : ∀ b ∈ pre, b ≠ 0 ∧ b ≠ t) (ht : t ≠ 0 ∨ allow = true) :
    (string8_pop_and_collect_string s t allow).1 = { data := s.data, length := pre.length } ∧
      (string8_pop_and_collect_string s t allow).1.bytes = pre ∧
      (string8_pop_and_collect_string s t allow).2 =
        { data := s.data.drop pre.length, length := s.length - pre.length } ∧
      (string8_pop_and_collect_string s t allow).2.bytes = t :: post := by
  have hlen := string8_bytes_length s hs
  have hle : pre.length ≤ s.length := by
    rw [← hlen, hb]
    simp
  have hpair : string8_pop_and_collect_string s t allow =
      ({ data := s.data, length := pre.length },
       { data := s.data.drop pre.length, length := s.length - pre.length }) := by
    rcases ht with ht | ht
    · exact string8_pop_and_collect_string_found s t allow pre post hs hb hpre ht
    · by_cases h0 : t = 0
      · have hne : s.length ≠ 0 := by
          rw [← hlen, hb]
          simp
        have := string8_pop_and_collect_string_no_terminator s t allow pre (t :: post) hs hne hb
          hpre (Or.inr (by simp [h0]))
        rw [this, ht]
        rfl
      · exact string8_pop_and_collect_string_found s t allow pre post hs hb hpre h0
  rw [hpair]
  refine ⟨rfl, ?_, rfl, ?_⟩
  · rw [string8_bytes_take s.data s.length pre.length hle, string8_ext_fields, hb]
    simp
  · rw [string8_bytes_drop, string8_ext_fields, hb]
    simp

/-- Witness for `string8_pop_and_collect_string_terminator`: collecting up to
the space in `"/a b"`. -/
theorem string8_pop_and_collect_string_terminator_witness :
    (string8_pop_and_collect_string (string8.of_bytes (literal_bytes "/a b")) 32 false).1.bytes =
      literal_bytes "/a" :=
  (string8_pop_and_collect_string_terminator (string8.of_bytes (literal_bytes "/a b")) 32 false
    (literal_bytes "/a") (literal_bytes "b") (by decide) (by decide) (by decide)
    (by decide)).2.1

/-- C13 (as stated) fails on a zero byte: in the view `"a\0."` the terminator
`'.'` occurs, but with `allow_end_of_string` unset the call returns the null
view instead of `"a\0"`, and with it set it returns `"a"` and leaves the view at
the zero byte; and for the terminator 0 itself, unset, the view `"a\0"` yields
the null view instead of `"a"`. -/
theorem string8_pop_and_collect_string_terminator_counterexample :
    (46 ∈ [97, 0, 46]) ∧
      string8_pop_and_collect_string (string8.of_bytes [97, 0, 46]) 46 false =
        (null_string, null_string) ∧
      (string8_pop_and_collect_string (string8.of_bytes [97, 0, 46]) 46 true).1.bytes = [97] ∧
      (string8_pop_and_collect_string (string8.of_bytes [97, 0, 46]) 46 true).2.bytes =
        [0, 46] ∧
      string8_pop_and_collect_string (string8.of_bytes [97, 0]) 0 false =
        (null_string, null_string) := by
  decide

/-- C14 (as amended): for every well-formed view in which the terminator does not
occur, the empty view included, `string8_pop_and_collect_string` with
`allow_end_of_string` unset returns the null view and leaves the null view; with
it set, on a non-empty view that also holds no zero byte, it returns all the
bytes of the view and leaves it empty. -/
theorem string8_pop_and_collect_string_end (s : string8) (t : Nat) (hs : s.wf)
    (ht : t ∉ s.bytes) :
    string8_pop_and_collect_string s t false = (null_string, null_string) ∧
      (s.length ≠ 0 → 0 ∉ s.bytes →
        string8_pop_and_collect_string s t true =
          ({ data := s.data, length := s.length },
           { data := s.data.drop s.length, length := 0 }) ∧
        (string8_pop_and_collect_string s t true).1.bytes = s.bytes ∧
        (string8_pop_and_collect_string s t true).2.bytes = [] ∧
        (string8_pop_and_collect_string s t true).2.length = 0) := by
  have hlen := string8_bytes_length s hs
  constructor
  · by_cases hne : s.length = 0
    · exact string8_pop_and_collect_string_empty s t false hne
    · by_cases hz : 0 ∈ s.bytes
      · obtain ⟨pre, post, hsplit, hpre⟩ := exists_first_occurrence 0 s.bytes hz
        have := string8_pop_and_collect_string_no_terminator s t false pre (0 :: post) hs hne
          hsplit
          (fun b hbm => ⟨fun e => hpre (e ▸ hbm),
            fun e => ht (by rw [hsplit]; simp [← e, hbm])⟩)
          (Or.inr rfl)
        simpa using this
      · have := string8_pop_and_collect_string_no_terminator s t false s.bytes [] hs hne
          (by simp)
          (fun b hbm => ⟨fun e => hz (e ▸ hbm), fun e => ht (e ▸ hbm)⟩) (Or.inl rfl)
        simpa using this
  · intro hne hz
    have hcol := string8_pop_and_collect_string_no_terminator s t true s.bytes [] hs hne
      (by simp)
      (fun b hbm => ⟨fun e => hz (e ▸ hbm), fun e => ht (e ▸ hbm)⟩) (Or.inl rfl)
    rw [hlen] at hcol
    simp only [if_true, Nat.sub_self] at hcol
    rw [hcol]
    refine ⟨rfl, ?_, ?_, rfl⟩
    · rw [string8_ext_fields]
    · simp [string8.bytes]

/-- Witness for `string8_pop_and_collect_string_end`: the view `"html"` and the
terminator `'.'`. -/
theorem string8_pop_and_collect_string_end_witness :
    string8_pop_and_collect_string (string8.of_bytes (literal_bytes "html")) 46 false =
        (null_string, null_string) ∧
      (string8_pop_and_collect_string (string8.of_bytes (literal_bytes "html")) 46 true).1.bytes =
        literal_bytes "html" :=
  ⟨(string8_pop_and_collect_string_end (string8.of_bytes (literal_bytes "html")) 46 (by decide)
      (by decide)).1,
   ((string8_pop_and_collect_string_end (string8.of_bytes (literal_bytes "html")) 46 (by decide)
      (by decide)).2 (by decide) (by decide)).2.1⟩

/-- C14 (as stated) fails on a zero byte: the view `"a\0b"` is non-empty and does
not hold the terminator `'.'`, yet with `allow_end_of_string` set the call
returns only `"a"` and leaves the two bytes `"\0b"` in the view. -/
theorem string8_pop_and_collect_string_end_counterexample :
    (46 ∉ [97, 0, 98]) ∧
      (string8_pop_and_collect_string (string8.of_bytes [97, 0, 98]) 46 true).1.bytes = [97] ∧
      (string8_pop_and_collect_string (string8.of_bytes [97, 0, 98]) 46 true).2.bytes =
        [0, 98] ∧
      (string8_pop_and_collect_string (string8.of_bytes [97, 0, 98]) 46 true).2.length = 2 := by
  decide

/-- C15: `string8_equal_to(a, b)` is true exactly when `a` and `b` have the same
length and the same byte at every index below it; on views over byte sequences
that is equality of the sequences, so `equals(s, s)` is true, `equals(s, s ++ "x")`
is false and `equals("", "")` is true. -/
theorem string8_equal_to_contract (a b : string8) :
    (string8_equal_to a b = true ↔
        a.length = b.length ∧ ∀ i, i < a.length → a.data.getD i 0 = b.data.getD i 0) ∧
      (∀ l1 l2 : List Nat,
        string8_equal_to (string8.of_bytes l1) (string8.of_bytes l2) = true ↔ l1 = l2) ∧
      (∀ s : List Nat, string8_equal_to (string8.of_bytes s) (string8.of_bytes s) = true) ∧
      (∀ (s : List Nat) (x : Nat),
        string8_equal_to (string8.of_bytes s) (string8.of_bytes (s ++ [x])) = false) ∧
      string8_equal_to (string8.of_bytes []) (string8.of_bytes []) = true := by
  have hof : ∀ l1 l2 : List Nat,
      string8_equal_to (string8.of_bytes l1) (string8.of_bytes l2) = true ↔ l1 = l2 := by
    intro l1 l2
    rw [string8_equal_to_iff _ _ (string8_of_bytes_wf l1) (string8_of_bytes_wf l2),
      string8_of_bytes_bytes, string8_of_bytes_bytes]
  refine ⟨?_, hof, fun s => (hof s s).mpr rfl, ?_, (hof [] []).mpr rfl⟩
  · simp only [string8_equal_to]
    by_cases hlen : a.length = b.length
    · simp only [ne_eq, hlen, not_true_eq_false, if_false, string8_equal_to_loop_iff,
        Nat.zero_add, true_and]
    · simp [hlen]
  · intro s x
    cases h : string8_equal_to (string8.of_bytes s) (string8.of_bytes (s ++ [x])) with
    | false => rfl
    | true =>
      have := congrArg List.length ((hof s (s ++ [x])).mp h)
      simp at this

/-! ## The scratch arena of a connection -/

/-- Allocations of the connection block act on `scratch` alone: they are the
allocations of `arena_push_all` on that arena, with `temp` carried along. -/
theorem main_scratch_push_all_eq (sizes : List Nat) :
    ∀ arenas : main_arenas,
      main_scratch_push_all arenas sizes =
        (arena_push_all arenas.scratch sizes).map
          (fun scratch1 => { temp := arenas.temp, scratch := scratch1 }) := by
  induction sizes with
  | nil => intro arenas; cases arenas; rfl
  | cons size rest ih =>
    intro arenas
    simp only [main_scratch_push_all, main_scratch_push, arena_push_all]
    cases h : arena_push arenas.scratch size with
    | none => rfl
    | some r => exact ih _

/-- C16: for every arena `a` with `a.offset <= a.capacity`, `arena_scratch(a)` is
the descriptor with base `a.base + a.offset`, offset 0 and capacity
`a.capacity - a.offset`; deriving it leaves `a` as it was, and so does every
sequence of allocations on the derived scratch arena, whose regions lie in the
unused part of `a` when `a` itself lies below the address `2 ^ 64`; deriving a
scratch arena again after such a sequence yields the same descriptor as the
first time. -/
theorem arena_scratch_frame (a : memory_arena) (sizes : List Nat)
    (hinv : a.offset ≤ a.capacity) (hcap : a.capacity < 2 ^ 64) :
    arena_scratch a =
        { base := a.base + a.offset, offset := 0, capacity := a.capacity - a.offset } ∧
      (∀ scratch0 : memory_arena,
        (main_derive_scratch { temp := a, scratch := scratch0 }).temp = a ∧
        (main_derive_scratch { temp := a, scratch := scratch0 }).scratch = arena_scratch a) ∧
      (∀ (scratch0 : memory_arena) (arenas1 : main_arenas),
        main_scratch_push_all (main_derive_scratch { temp := a, scratch := scratch0 }) sizes =
          some arenas1 →
        arenas1.temp = a ∧
        main_derive_scratch arenas1 = main_derive_scratch { temp := a, scratch := scratch0 } ∧
        (main_derive_scratch arenas1).scratch =
          { base := a.base + a.offset, offset := 0, capacity := a.capacity - a.offset }) ∧
      (sizes.sum < a.capacity - a.offset → ∀ scratch0 : memory_arena,
        (main_scratch_push_all (main_derive_scratch { temp := a, scratch := scratch0 })
          sizes).isSome) ∧
      (∀ (size : Nat) (region : arena_region) (scratch1 : memory_arena), size < 2 ^ 32 →
        a.base + a.capacity ≤ 2 ^ 64 →
        arena_push (arena_scratch a) size = some (region, scratch1) →
        a.base + a.offset ≤ region.address ∧
        region.address + region.bytes.length < a.base + a.capacity) := by
  have hs : arena_scratch a =
      { base := a.base + a.offset, offset := 0, capacity := a.capacity - a.offset } := by
    have hmod : (a.capacity + 2 ^ 64 - a.offset) % 2 ^ 64 = a.capacity - a.offset := by omega
    simp only [arena_scratch, hmod]
  refine ⟨hs, fun _ => ⟨rfl, rfl⟩, ?_, ?_, ?_⟩
  · intro scratch0 arenas1 h
    rw [main_scratch_push_all_eq] at h
    cases hp : arena_push_all (main_derive_scratch { temp := a, scratch := scratch0 }).scratch
        sizes with
    | none => rw [hp] at h; simp at h
    | some scratch1 =>
      rw [hp] at h
      simp only [Option.map_some', Option.some.injEq] at h
      subst h
      exact ⟨rfl, rfl, hs⟩
  · intro hroom scratch0
    rw [main_scratch_push_all_eq]
    have : (main_derive_scratch { temp := a, scratch := scratch0 }).scratch =
        { base := a.base + a.offset, offset := 0, capacity := a.capacity - a.offset } := hs
    rw [this, arena_push_all_of_lt sizes _ (by simp only; omega) (by simp only; omega)]
    rfl
  · intro size region scratch1 hsz hspace h
    rw [hs] at h
    obtain ⟨hlt, hregion, _⟩ := arena_push_aligned_some _ size 16 region scratch1 h
    simp only [Nat.zero_add, Nat.add_zero] at hlt hregion
    subst hregion
    rw [Nat.mod_eq_of_lt (by omega)] at hlt
    have haddr : (a.base + a.offset) % 2 ^ 64 = a.base + a.offset :=
      Nat.mod_eq_of_lt (by omega)
    simp only [haddr, List.length_replicate]
    omega

/-- Witness for `arena_scratch_frame`: the arena of `main` after 4096 bytes of
use, and the requests 2048 and 24 on its scratch arena; a request of 24 bytes on
the derived scratch arena returns the region at address 8192, inside the unused
part of the arena. -/
theorem arena_scratch_frame_witness :
    arena_scratch { base := 4096, offset := 4096, capacity := 33554432 } =
        { base := 4096 + 4096, offset := 0, capacity := 33554432 - 4096 } ∧
      (arena_push (arena_scratch { base := 4096, offset := 4096, capacity := 33554432 }) 24 =
          some ({ address := 8192, bytes := List.replicate 24 0 },
                { base := 8192, offset := 24, capacity := 33550336 }) ∧
        4096 + 4096 ≤ 8192 ∧ 8192 + 24 < 4096 + 33554432) :=
  ⟨(arena_scratch_frame { base := 4096, offset := 4096, capacity := 33554432 } [2048, 24]
      (by decide) (by decide)).1,
   by decide,
   (arena_scratch_frame { base := 4096, offset := 4096, capacity := 33554432 } [2048, 24]
      (by decide) (by decide)).2.2.2.2 24 { address := 8192, bytes := List.replicate 24 0 }
      { base := 8192, offset := 24, capacity := 33550336 } (by decide) (by decide) (by decide)⟩

/-- C17 at the failing input, the third allocation of a connection: after the
2048-byte receive buffer and the first 24-byte builder node the scratch offset
is 2072, and `arena_push`, which asks `arena_push_aligned` for alignment 16,
returns the region that starts 2072 bytes from the arena base, which is not a
multiple of 16; the region does consist of 24 zero bytes and the offset ends up
at the end of the region. -/
theorem arena_push_aligned_ignores_alignment :
    arena_push_all { base := 4096, offset := 0, capacity := 33554432 } [2048, 24] =
        some { base := 4096, offset := 2072, capacity := 33554432 } ∧
      arena_push { base := 4096, offset := 2072, capacity := 33554432 } 24 =
        some ({ address := 4096 + 2072, bytes := List.replicate 24 0 },
              { base := 4096, offset := 2072 + 24, capacity := 33554432 }) ∧
      arena_push_aligned { base := 4096, offset := 2072, capacity := 33554432 } 24 16 =
        arena_push_aligned { base := 4096, offset := 2072, capacity := 33554432 } 24 1 ∧
      (4096 + 2072 - 4096) % 16 = 8 ∧
      ¬ (16 ∣ 4096 + 2072 - 4096) := by
  decide

/-! ## What a parsed path says about the request -/

theorem dropWhile_head_not (p : Nat → Bool) (l : List Nat) (h : Nat) (rest : List Nat)
    (hd : l.dropWhile p = h :: rest) : p h = false := by
  have := List.head?_dropWhile_not p l
  rw [hd] at this
  simpa using this

theorem drop_length_takeWhile (p : Nat → Bool) (l : List Nat) :
    l.drop (l.takeWhile p).length = l.dropWhile p := by
  have h := congrArg (List.drop (l.takeWhile p).length) (List.takeWhile_append_dropWhile p l)
  rw [List.drop_left] at h
  exact h.symm

theorem take_length_takeWhile (p : Nat → Bool) (l : List Nat) :
    l.take (l.takeWhile p).length = l.takeWhile p := by
  have h := congrArg (List.take (l.takeWhile p).length) (List.takeWhile_append_dropWhile p l)
  rw [List.take_left] at h
  exact h.symm

/-- What a call of `string8_pop_and_collect_string` with `allow_end_of_string`
unset and a non-zero terminator can do on a well-formed view: fail, or stop in
front of a terminator, with no zero byte and no terminator stepped over. -/
theorem string8_pop_and_collect_string_inv (s : string8) (t : Nat) (hs : s.wf) (ht : t ≠ 0) :
    string8_pop_and_collect_string s t false = (null_string, null_string) ∨
      ∃ pre post, s.bytes = pre ++ t :: post ∧ (∀ b ∈ pre, b ≠ 0 ∧ b ≠ t) ∧
        string8_pop_and_collect_string s t false =
          ({ data := s.data, length := pre.length },
           { data := s.data.drop pre.length, length := s.length - pre.length }) := by
  by_cases hne : s.length = 0
  · exact Or.inl (string8_pop_and_collect_string_empty s t false hne)
  · have hpre : ∀ b ∈ s.bytes.takeWhile (collect_continues t), b ≠ 0 ∧ b ≠ t :=
      fun b hbm => (collect_continues_iff t b).mp (List.mem_takeWhile_imp hbm)
    have hsplit := (List.takeWhile_append_dropWhile (collect_continues t) s.bytes).symm
    cases hdw : s.bytes.dropWhile (collect_continues t) with
    | nil =>
      left
      rw [hdw] at hsplit
      have := string8_pop_and_collect_string_no_terminator s t false _ [] hs hne hsplit hpre
        (Or.inl rfl)
      simpa using this
    | cons h rest =>
      rw [hdw] at hsplit
      have hnot := dropWhile_head_not _ _ h rest hdw
      by_cases h0 : h = 0
      · left
        have := string8_pop_and_collect_string_no_terminator s t false _ (h :: rest) hs hne
          hsplit hpre (Or.inr (by simp [h0]))
        simpa using this
      · right
        have hht : h = t := by
          by_contra hc
          have := (collect_continues_iff t h).mpr ⟨h0, hc⟩
          rw [hnot] at this
          exact Bool.false_ne_true this
        subst hht
        exact ⟨_, rest, hsplit, hpre,
          string8_pop_and_collect_string_found s h false _ rest hs hsplit hpre ht⟩

/-- C18: for every well-formed request view, if `parse_http_request` returns a
path of non-zero length then the request begins with `"GET "`, the path is the
slice of the request that starts at index 4, it is immediately followed in the
request by a space byte, and it contains neither a space byte nor a zero byte. -/
theorem parse_http_request_path_slice (r : string8) (hr : r.wf)
    (hpath : (parse_http_request r).path.length ≠ 0) :
    literal_bytes "GET " <+: r.bytes ∧
      (parse_http_request r).path.data = r.data.drop 4 ∧
      (parse_http_request r).path.bytes =
        (r.bytes.drop 4).take (parse_http_request r).path.length ∧
      (∃ rest, r.bytes =
        literal_bytes "GET " ++ (parse_http_request r).path.bytes ++ 32 :: rest) ∧
      (∀ b ∈ (parse_http_request r).path.bytes, b ≠ 32 ∧ b ≠ 0) := by
  have hspec := string8_pop_expected_string_spec r (string8_static "GET ") hr
    (string8_static_wf _)
  rw [string8_static_bytes] at hspec
  by_cases hp : literal_bytes "GET " <+: r.bytes
  · rw [if_pos hp] at hspec
    have h1 : string8_pop_expected_string r (string8_static "GET ") =
        { data := r.data.drop 4, length := r.length - 4 } := hspec
    have hs1 : ({ data := r.data.drop 4, length := r.length - 4 } : string8).wf :=
      string8_wf_drop _ _ _ hr
    have hb1 : ({ data := r.data.drop 4, length := r.length - 4 } : string8).bytes =
        r.bytes.drop 4 := by
      rw [string8_bytes_drop, string8_ext_fields]
    have hl1 : (r.bytes.drop 4).length = r.length - 4 := by
      rw [← hb1]
      exact string8_bytes_length _ hs1
    rcases string8_pop_and_collect_string_inv _ 32 hs1 (by decide) with hnull | hfound
    · exfalso
      apply hpath
      simp only [parse_http_request, h1, hnull]
      rfl
    · obtain ⟨pre, post, hsplit, hpre, hcol⟩ := hfound
      rw [hb1] at hsplit
      have hpatheq : (parse_http_request r).path =
          { data := r.data.drop 4, length := pre.length } := by
        simp only [parse_http_request, h1, hcol]
      have hk : pre.length ≤ r.length - 4 := by
        rw [← hl1, hsplit]
        simp
      have hpb : (parse_http_request r).path.bytes = pre := by
        rw [hpatheq, string8_bytes_take _ (r.length - 4) _ hk, hb1, hsplit]
        simp
      obtain ⟨tail, htail⟩ := hp
      have hdrop4 : r.bytes.drop 4 = tail := by
        rw [← htail, literal_bytes_GET]
        rfl
      refine ⟨⟨tail, htail⟩, by rw [hpatheq], ?_, ⟨post, ?_⟩, ?_⟩
      · rw [hpb, hpatheq, hsplit]
        simp
      · rw [hpb, List.append_assoc, ← hsplit, hdrop4, htail]
      · intro b hbm
        rw [hpb] at hbm
        exact ⟨(hpre b hbm).2, (hpre b hbm).1⟩
  · exfalso
    apply hpath
    rw [if_neg hp] at hspec
    simp only [parse_http_request, hspec]
    rfl

/-- Witness for `parse_http_request_path_slice`: a request with the version
`HTTP/1.0`, for which the parser still returns the path `"/foo"`. -/
theorem parse_http_request_path_slice_witness :
    literal_bytes "GET " <+: (string8.of_bytes (literal_bytes "GET /foo HTTP/1.0\r\n")).bytes ∧
      (parse_http_request (string8.of_bytes (literal_bytes "GET /foo HTTP/1.0\r\n"))).path.data =
        (string8.of_bytes (literal_bytes "GET /foo HTTP/1.0\r\n")).data.drop 4 :=
  ⟨(parse_http_request_path_slice (string8.of_bytes (literal_bytes "GET /foo HTTP/1.0\r\n"))
      (by decide) (by decide)).1,
   (parse_http_request_path_slice (string8.of_bytes (literal_bytes "GET /foo HTTP/1.0\r\n"))
      (by decide) (by decide)).2.1⟩

/-! ## Views stay inside the view they were derived from -/

theorem null_or_suffix_self (v : string8) : v.null_or_suffix v :=
  Or.inr ⟨0, Nat.zero_le _, by simp [string8_ext_fields]⟩

theorem null_or_suffix_wf (s v : string8) (hv : v.wf) (h : s.null_or_suffix v) :
    s.wf ∧ s.length ≤ v.length := by
  rcases h with rfl | ⟨k, hk, rfl⟩
  · exact ⟨null_string_wf, Nat.zero_le _⟩
  · exact ⟨string8_wf_drop _ _ _ hv, Nat.sub_le _ _⟩

/-- A view that is null or an advanced `s`, for `s` null or a suffix of `v`, is
again null or a suffix of `v`. -/
theorem null_or_suffix_trans (s1 s v : string8) (hs : s.null_or_suffix v)
    (h1 : s1.null_or_suffix s) : s1.null_or_suffix v := by
  rcases h1 with rfl | ⟨m, hm, rfl⟩
  · exact Or.inl rfl
  · rcases hs with rfl | ⟨k, hk, rfl⟩
    · left
      simp only [null_string, Nat.le_zero_eq] at hm
      subst hm
      rfl
    · right
      simp only at hm
      refine ⟨k + m, by omega, ?_⟩
      simp only [List.drop_drop, string8.mk.injEq, true_and]
      omega

theorem string8_pop_char_suffix (s : string8) : (string8_pop_char s).2.null_or_suffix s := by
  by_cases h : s.length = 0
  · simp only [string8_pop_char, h, if_true]
    exact null_or_suffix_self s
  · right
    refine ⟨1, by omega, ?_⟩
    simp [string8_pop_char, h]

theorem string8_pop_expected_string_loop_suffix (expected : string8) :
    ∀ (k i : Nat) (s : string8), k ≤ s.length →
      (string8_pop_expected_string_loop expected k i s).null_or_suffix s := by
  intro k
  induction k with
  | zero => intro i s _; exact null_or_suffix_self s
  | succ k ih =>
    intro i s hk
    simp only [string8_pop_expected_string_loop]
    split
    · rw [string8_pop_expected_string_loop_null]
      exact Or.inl rfl
    · have hp := string8_pop_char_suffix s
      have hlen : (string8_pop_char s).2.length = s.length - 1 := by
        have hne : s.length ≠ 0 := by omega
        simp [string8_pop_char, hne]
      exact null_or_suffix_trans _ _ _ hp (ih (i + 1) _ (by omega))

theorem string8_pop_expected_string_suffix (s expected : string8) :
    (string8_pop_expected_string s expected).null_or_suffix s := by
  simp only [string8_pop_expected_string]
  split
  · exact Or.inl rfl
  · exact string8_pop_expected_string_loop_suffix expected _ 0 s (by omega)

theorem string8_pop_expected_char_suffix (s : string8) (expected : Nat) :
    (string8_pop_expected_char s expected).null_or_suffix s := by
  simp only [string8_pop_expected_char]
  split
  · exact Or.inl rfl
  · exact string8_pop_char_suffix s

theorem string8_pop_and_collect_string_suffix (s : string8) (t : Nat) (allow : Bool)
    (hs : s.wf) :
    (string8_pop_and_collect_string s t allow).2.null_or_suffix s ∧
      (string8_pop_and_collect_string s t allow).1.null_or_subrange s := by
  by_cases hne : s.length = 0
  · rw [string8_pop_and_collect_string_empty s t allow hne]
    exact ⟨Or.inl rfl, Or.inl rfl⟩
  · rw [string8_pop_and_collect_string_spec s t allow hs hne]
    have hk : (s.bytes.takeWhile (collect_continues t)).length ≤ s.length := by
      rw [← string8_bytes_length s hs]
      exact (List.takeWhile_sublist _).length_le
    split
    · exact ⟨Or.inl rfl, Or.inl rfl⟩
    · exact ⟨Or.inr ⟨_, hk, rfl⟩,
        Or.inr ⟨0, (s.bytes.takeWhile (collect_continues t)).length, by omega, by simp⟩⟩

theorem null_or_subrange_trans (r s v : string8) (hs : s.null_or_suffix v)
    (hr : r.null_or_subrange s) : r.null_or_subrange v := by
  rcases hr with rfl | ⟨i, n, hin, rfl⟩
  · exact Or.inl rfl
  · rcases hs with rfl | ⟨k, hk, rfl⟩
    · simp only [null_string, Nat.le_zero_eq, Nat.add_eq_zero] at hin
      obtain ⟨rfl, rfl⟩ := hin
      exact Or.inl rfl
    · simp only at hin
      exact Or.inr ⟨k + i, n, by omega, by simp [List.drop_drop]⟩

/-! ## The operations see only the bytes of the view -/

theorem same_bytes_refl (a : string8) : a.same_bytes a := ⟨rfl, rfl⟩

theorem same_bytes_null : null_string.same_bytes null_string := ⟨rfl, rfl⟩

theorem same_bytes_drop (a b : string8) (k : Nat) (h : a.same_bytes b) :
    ({ data := a.data.drop k, length := a.length - k } : string8).same_bytes
      { data := b.data.drop k, length := b.length - k } := by
  refine ⟨by simp only [h.1], ?_⟩
  rw [string8_bytes_drop, string8_bytes_drop, string8_ext_fields, string8_ext_fields, h.2]

theorem same_bytes_take (a b : string8) (k : Nat) (h : a.same_bytes b) (hk : k ≤ a.length) :
    ({ data := a.data, length := k } : string8).same_bytes { data := b.data, length := k } := by
  refine ⟨rfl, ?_⟩
  rw [string8_bytes_take a.data a.length k hk, string8_bytes_take b.data b.length k (h.1 ▸ hk),
    string8_ext_fields, string8_ext_fields, h.2]

theorem same_bytes_safe_peek (a b : string8) (ha : a.wf) (hb : b.wf) (h : a.same_bytes b) :
    string8_safe_peek a = string8_safe_peek b := by
  cases hl : a.bytes with
  | nil =>
    rw [string8_safe_peek_of_empty a ha hl, string8_safe_peek_of_empty b hb (h.2 ▸ hl)]
  | cons x l =>
    rw [string8_safe_peek_of_bytes a x l hl, string8_safe_peek_of_bytes b x l (h.2 ▸ hl)]

theorem same_bytes_pop_char (a b : string8) (ha : a.wf) (hb : b.wf) (h : a.same_bytes b) :
    (string8_pop_char a).1 = (string8_pop_char b).1 ∧
      (string8_pop_char a).2.same_bytes (string8_pop_char b).2 := by
  cases hl : a.bytes with
  | nil =>
    rw [string8_pop_char_of_empty a ha hl, string8_pop_char_of_empty b hb (h.2 ▸ hl)]
    exact ⟨rfl, h⟩
  | cons x l =>
    rw [string8_pop_char_of_bytes a x l hl, string8_pop_char_of_bytes b x l (h.2 ▸ hl)]
    exact ⟨rfl, same_bytes_drop a b 1 h⟩

theorem same_bytes_pop_expected_string (a b e1 e2 : string8) (ha : a.wf) (hb : b.wf)
    (he1 : e1.wf) (he2 : e2.wf) (h : a.same_bytes b) (he : e1.same_bytes e2) :
    (string8_pop_expected_string a e1).same_bytes (string8_pop_expected_string b e2) := by
  rw [string8_pop_expected_string_spec a e1 ha he1, string8_pop_expected_string_spec b e2 hb he2,
    ← h.2, ← he.2, ← he.1]
  split
  · exact same_bytes_drop a b e1.length h
  · exact same_bytes_null

theorem same_bytes_pop_expected_char (a b : string8) (c : Nat) (ha : a.wf) (hb : b.wf)
    (h : a.same_bytes b) :
    (string8_pop_expected_char a c).same_bytes (string8_pop_expected_char b c) := by
  have hp := same_bytes_pop_char a b ha hb h
  simp only [string8_pop_expected_char, ← hp.1]
  split
  · exact same_bytes_null
  · exact hp.2

theorem same_bytes_pop_and_collect_string (a b : string8) (t : Nat) (allow : Bool) (ha : a.wf)
    (hb : b.wf) (h : a.same_bytes b) :
    (string8_pop_and_collect_string a t allow).1.same_bytes
        (string8_pop_and_collect_string b t allow).1 ∧
      (string8_pop_and_collect_string a t allow).2.same_bytes
        (string8_pop_and_collect_string b t allow).2 := by
  by_cases hne : a.length = 0
  · rw [string8_pop_and_collect_string_empty a t allow hne,
      string8_pop_and_collect_string_empty b t allow (h.1 ▸ hne)]
    exact ⟨same_bytes_null, same_bytes_null⟩
  · have hk : (a.bytes.takeWhile (collect_continues t)).length ≤ a.length := by
      rw [← string8_bytes_length a ha]
      exact (List.takeWhile_sublist _).length_le
    have hrest := same_bytes_drop a b (a.bytes.takeWhile (collect_continues t)).length h
    have hpeek := same_bytes_safe_peek _ _ (string8_wf_drop _ _ _ ha) (string8_wf_drop _ _ _ hb)
      hrest
    rw [string8_pop_and_collect_string_spec a t allow ha hne,
      string8_pop_and_collect_string_spec b t allow hb (h.1 ▸ hne), ← h.2, hpeek]
    split
    · exact ⟨same_bytes_null, same_bytes_null⟩
    · exact ⟨same_bytes_take a b _ h hk, hrest⟩

theorem string8_pop_expected_string_wf (s expected : string8) (hs : s.wf) :
    (string8_pop_expected_string s expected).wf :=
  (null_or_suffix_wf _ s hs (string8_pop_expected_string_suffix s expected)).1

theorem string8_pop_expected_char_wf (s : string8) (c : Nat) (hs : s.wf) :
    (string8_pop_expected_char s c).wf :=
  (null_or_suffix_wf _ s hs (string8_pop_expected_char_suffix s c)).1

theorem string8_operation_apply_suffix (op : string8_operation) (s : string8) (hs : s.wf) :
    (op.apply s).null_or_suffix s := by
  cases op with
  | pop_char => exact string8_pop_char_suffix s
  | pop_expected_string expected => exact string8_pop_expected_string_suffix s expected
  | pop_expected_char expected => exact string8_pop_expected_char_suffix s expected
  | pop_and_collect_string t allow => exact (string8_pop_and_collect_string_suffix s t allow hs).1

theorem string8_operation_apply_same_bytes (op : string8_operation) (a b : string8)
    (hop : op.literal_wf) (ha : a.wf) (hb : b.wf) (h : a.same_bytes b) :
    (op.apply a).same_bytes (op.apply b) := by
  cases op with
  | pop_char => exact (same_bytes_pop_char a b ha hb h).2
  | pop_expected_string expected =>
    exact same_bytes_pop_expected_string a b expected expected ha hb hop hop h
      (same_bytes_refl expected)
  | pop_expected_char expected => exact same_bytes_pop_expected_char a b expected ha hb h
  | pop_and_collect_string t allow =>
    exact (same_bytes_pop_and_collect_string a b t allow ha hb h).2

theorem string8_apply_chain_suffix (ops : List string8_operation) :
    ∀ (s v : string8), v.wf → s.null_or_suffix v →
      (string8_apply_chain ops s).null_or_suffix v := by
  induction ops with
  | nil => intro s v _ hs; exact hs
  | cons op rest ih =>
    intro s v hv hs
    have hswf := (null_or_suffix_wf s v hv hs).1
    exact ih _ v hv (null_or_suffix_trans _ s v hs (string8_operation_apply_suffix op s hswf))

theorem string8_apply_chain_same_bytes (ops : List string8_operation) :
    ∀ (a b : string8), (∀ op ∈ ops, op.literal_wf) → a.wf → b.wf → a.same_bytes b →
      (string8_apply_chain ops a).same_bytes (string8_apply_chain ops b) := by
  induction ops with
  | nil => intro a b _ _ _ h; exact h
  | cons op rest ih =>
    intro a b hops ha hb h
    have hwa := (null_or_suffix_wf _ a ha (string8_operation_apply_suffix op a ha)).1
    have hwb := (null_or_suffix_wf _ b hb (string8_operation_apply_suffix op b hb)).1
    exact ih _ _ (fun o ho => hops o (by simp [ho])) hwa hwb
      (string8_operation_apply_same_bytes op a b (hops op (by simp)) ha hb h)

/-- C19: let `s` be the view left by any chain of the operations
`string8_pop_char`, `string8_pop_expected_string`, `string8_pop_expected_char`
and `string8_pop_and_collect_string` on a well-formed view `v` (the empty chain
gives `v` itself, and `s` may have been poisoned to null).  Then `s` is the null
view or a suffix of `v` and no longer than `v`; every further operation leaves
the null view or a suffix of `v`, no longer than `s`; every view that
`string8_pop_and_collect_string` returns is null or a run of bytes inside `v`;
and nothing depends on memory outside the view: on a second view `v2` with the
same bytes, whatever lies behind them, the chain leaves a view with the same
bytes, and the popped byte and the collected view agree as well. -/
theorem string8_operations_stay_inside (v v2 : string8) (ops : List string8_operation)
    (hv : v.wf) (hv2 : v2.wf) (hsame : v.same_bytes v2) (hops : ∀ op ∈ ops, op.literal_wf) :
    ((string8_apply_chain ops v).null_or_suffix v ∧
        (string8_apply_chain ops v).length ≤ v.length) ∧
      (∀ op : string8_operation,
        (op.apply (string8_apply_chain ops v)).null_or_suffix v ∧
        (op.apply (string8_apply_chain ops v)).length ≤ (string8_apply_chain ops v).length) ∧
      (∀ (t : Nat) (allow : Bool),
        (string8_pop_and_collect_string (string8_apply_chain ops v) t allow).1.null_or_subrange
          v) ∧
      (string8_apply_chain ops v).same_bytes (string8_apply_chain ops v2) ∧
      (string8_pop_char (string8_apply_chain ops v)).1 =
        (string8_pop_char (string8_apply_chain ops v2)).1 ∧
      (∀ (t : Nat) (allow : Bool),
        (string8_pop_and_collect_string (string8_apply_chain ops v) t allow).1.same_bytes
          (string8_pop_and_collect_string (string8_apply_chain ops v2) t allow).1) := by
  have hs := string8_apply_chain_suffix ops v v hv (null_or_suffix_self v)
  have hswf := null_or_suffix_wf _ v hv hs
  have hs2 := string8_apply_chain_suffix ops v2 v2 hv2 (null_or_suffix_self v2)
  have hs2wf := null_or_suffix_wf _ v2 hv2 hs2
  have hchain := string8_apply_chain_same_bytes ops v v2 hops hv hv2 hsame
  refine ⟨⟨hs, hswf.2⟩, ?_, ?_, hchain, ?_, ?_⟩
  · intro op
    have hop := string8_operation_apply_suffix op _ hswf.1
    exact ⟨null_or_suffix_trans _ _ v hs hop, (null_or_suffix_wf _ _ hswf.1 hop).2⟩
  · intro t allow
    exact null_or_subrange_trans _ _ v hs
      (string8_pop_and_collect_string_suffix _ t allow hswf.1).2
  · exact (same_bytes_pop_char _ _ hswf.1 hs2wf.1 hchain).1
  · intro t allow
    exact (same_bytes_pop_and_collect_string _ _ t allow hswf.1 hs2wf.1 hchain).1

/-- Witness for `string8_operations_stay_inside`: the chain of
`parse_http_request` followed by a pop, on the bytes `"GET /a b"`, once with
nothing behind them and once with two more bytes of memory behind them. -/
theorem string8_operations_stay_inside_witness :
    (string8_apply_chain
        [string8_operation.pop_expected_string (string8_static "GET "),
         string8_operation.pop_and_collect_string 32 false,
         string8_operation.pop_char]
        (string8.of_bytes (literal_bytes "GET /a b"))).same_bytes
      (string8_apply_chain
        [string8_operation.pop_expected_string (string8_static "GET "),
         string8_operation.pop_and_collect_string 32 false,
         string8_operation.pop_char]
        { data := literal_bytes "GET /a b" ++ [9, 9], length := 8 }) :=
  (string8_operations_stay_inside (string8.of_bytes (literal_bytes "GET /a b"))
    { data := literal_bytes "GET /a b" ++ [9, 9], length := 8 }
    [string8_operation.pop_expected_string (string8_static "GET "),
     string8_operation.pop_and_collect_string 32 false,
     string8_operation.pop_char]
    (by decide) (by decide) ⟨by decide, by decide⟩
    (by
      intro op h
      simp only [List.mem_cons, List.mem_singleton, List.not_mem_nil, or_false] at h
      rcases h with rfl | rfl | rfl
      · exact string8_static_wf _
      · exact True.intro
      · exact True.intro)).2.2.2.1

/-! ## Index bounds of `string8_from_u32` -/

/-- Forgetting the record of writes gives back the digit loop. -/
theorem string8_from_u32_digits_traced_erase :
    ∀ (fuel : Nat) (temp_buffer : List Nat) (value length : Nat),
      (string8_from_u32_digits_traced fuel temp_buffer value length).map
          (fun r => (r.1, r.2.1)) =
        string8_from_u32_digits fuel temp_buffer value length := by
  intro fuel
  induction fuel with
  | zero => intro tb value length; rfl
  | succ fuel ih =>
    intro tb value length
    simp only [string8_from_u32_digits_traced, string8_from_u32_digits]
    split
    · split
      · rw [← ih]
        cases string8_from_u32_digits_traced fuel
            (tb.set ((15 + 2 ^ 32 - length) % 2 ^ 32) ((value % 10 + 48) % 256)) (value / 10)
            ((length + 1) % 2 ^ 32) with
        | none => rfl
        | some r => rfl
      · rfl
    · rfl

/-- Forgetting the record of accesses gives back the copy loop. -/
theorem string8_from_u32_copy_traced_erase (temp_buffer : List Nat) (length : Nat) :
    ∀ (n i : Nat) (buffer : List Nat),
      (string8_from_u32_copy_traced temp_buffer length n i buffer).map (fun r => r.1) =
        string8_from_u32_copy temp_buffer length n i buffer := by
  intro n
  induction n with
  | zero => intro i buffer; rfl
  | succ n ih =>
    intro i buffer
    simp only [string8_from_u32_copy_traced, string8_from_u32_copy]
    split
    · rw [← ih]
      cases string8_from_u32_copy_traced temp_buffer length n (i + 1)
          (buffer.set i (temp_buffer.getD (16 - length + i) 0)) with
      | none => rfl
      | some r => rfl
    · rfl

/-- The digit loop writes once per digit. -/
theorem string8_from_u32_digits_traced_count :
    ∀ (fuel : Nat) (temp_buffer : List Nat) (value length : Nat)
      (r : List Nat × Nat × List Nat),
      string8_from_u32_digits_traced fuel temp_buffer value length = some r →
      r.2.2.length = (decimal_digits fuel value).length := by
  intro fuel
  induction fuel with
  | zero => intro tb value length r h; simp [string8_from_u32_digits_traced] at h
  | succ fuel ih =>
    intro tb value length r h
    simp only [string8_from_u32_digits_traced] at h
    split at h
    · split at h
      · next hv =>
        cases hrec : string8_from_u32_digits_traced fuel
            (tb.set ((15 + 2 ^ 32 - length) % 2 ^ 32) ((value % 10 + 48) % 256)) (value / 10)
            ((length + 1) % 2 ^ 32) with
        | none => rw [hrec] at h; simp at h
        | some r1 =>
          rw [hrec] at h
          simp only [Option.some.injEq] at h
          subst h
          have := ih _ _ _ r1 hrec
          simp [decimal_digits, hv, this]
      · next hv =>
        simp only [Option.some.injEq] at h
        subst h
        simp only [ne_eq, Decidable.not_not] at hv
        simp [decimal_digits, hv]
    · simp at h

/-- Every write of the digit loop, started with `length` digits written, hits one
of the slots `16 - length - count .. 15 - length`, where `count` is the number of
its writes, as long as these slots exist. -/
theorem string8_from_u32_digits_traced_indices :
    ∀ (fuel : Nat) (temp_buffer : List Nat) (value length : Nat)
      (r : List Nat × Nat × List Nat),
      string8_from_u32_digits_traced fuel temp_buffer value length = some r →
      length + r.2.2.length ≤ 16 →
      ∀ index ∈ r.2.2, index + length ≤ 15 ∧ 16 ≤ index + length + r.2.2.length := by
  intro fuel
  induction fuel with
  | zero => intro tb value length r h; simp [string8_from_u32_digits_traced] at h
  | succ fuel ih =>
    intro tb value length r h hroom index hmem
    simp only [string8_from_u32_digits_traced] at h
    split at h
    · split at h
      · cases hrec : string8_from_u32_digits_traced fuel
            (tb.set ((15 + 2 ^ 32 - length) % 2 ^ 32) ((value % 10 + 48) % 256)) (value / 10)
            ((length + 1) % 2 ^ 32) with
        | none => rw [hrec] at h; simp at h
        | some r1 =>
          obtain ⟨tb2, len2, ws⟩ := r1
          rw [hrec] at h
          simp only [Option.some.injEq] at h
          subst h
          simp only [List.length_cons] at hroom ⊢
          simp only [List.mem_cons] at hmem
          have hl1 : (length + 1) % 2 ^ 32 = length + 1 := by omega
          rcases hmem with rfl | hmem
          · omega
          · rw [hl1] at hrec
            have := ih _ _ _ (tb2, len2, ws) hrec (by simp only; omega) index hmem
            simp only at this
            omega
      · simp only [Option.some.injEq] at h
        subst h
        simp only [List.length_singleton] at hroom ⊢
        simp only [List.mem_singleton] at hmem
        omega
    · simp at h

/-- Every iteration of a returning copy loop reads inside the 32 bytes of
`temp_buffer` and writes inside `buffer`. -/
theorem string8_from_u32_copy_traced_accesses (temp_buffer : List Nat) (length : Nat) :
    ∀ (n i : Nat) (buffer : List Nat) (r : List Nat × List (Nat × Nat)),
      string8_from_u32_copy_traced temp_buffer length n i buffer = some r →
      r.2.length = n ∧ ∀ a ∈ r.2, a.1 < 32 ∧ a.2 < buffer.length := by
  intro n
  induction n with
  | zero =>
    intro i buffer r h
    simp only [string8_from_u32_copy_traced, Option.some.injEq] at h
    subst h
    simp
  | succ n ih =>
    intro i buffer r h
    simp only [string8_from_u32_copy_traced] at h
    split at h
    · next hcond =>
      cases hrec : string8_from_u32_copy_traced temp_buffer length n (i + 1)
          (buffer.set i (temp_buffer.getD (16 - length + i) 0)) with
      | none => rw [hrec] at h; simp at h
      | some r1 =>
        rw [hrec] at h
        simp only [Option.some.injEq] at h
        subst h
        have := ih _ _ r1 hrec
        simp only [List.length_set] at this
        refine ⟨by simp [this.1], ?_⟩
        intro a ha
        simp only [List.mem_cons] at ha
        rcases ha with rfl | ha
        · exact ⟨hcond.2.1, hcond.2.2⟩
        · exact this.2 a ha
    · simp at h

/-- C20: for every unsigned 32-bit integer `v` and every content of the stack
array, the digit loop of `string8_from_u32` returns within its budget after
between 1 and 10 writes, each at an index `15 - length` between 6 and 15; the
copy loop then returns after 16 iterations, each reading below the 32 bytes of
`temp_buffer` and writing inside the 16-byte buffer; and the view returned on
an arena with room has the length the digit loop counted, at most 16. -/
theorem string8_from_u32_in_bounds (temp_buffer buffer : List Nat) (v : Nat)
    (htb : temp_buffer.length = 32) (hbuf : buffer.length = 16) (hv : v < 2 ^ 32) :
    ∃ (temp_buffer1 : List Nat) (length : Nat) (writes : List Nat) (buffer1 : List Nat)
      (accesses : List (Nat × Nat)),
      string8_from_u32_digits_traced (v + 1) temp_buffer v 0 =
          some (temp_buffer1, length, writes) ∧
        string8_from_u32_digits (v + 1) temp_buffer v 0 = some (temp_buffer1, length) ∧
        writes.length = length ∧ 1 ≤ length ∧ length ≤ 10 ∧
        (∀ index ∈ writes, 6 ≤ index ∧ index ≤ 15) ∧
        string8_from_u32_copy_traced temp_buffer1 length 16 0 buffer =
          some (buffer1, accesses) ∧
        string8_from_u32_copy temp_buffer1 length 16 0 buffer = some buffer1 ∧
        accesses.length = 16 ∧
        (∀ a ∈ accesses, a.1 < 32 ∧ a.2 < 16) ∧
        (∀ arena : memory_arena, (arena.offset + 16) % 2 ^ 64 < arena.capacity →
          ∃ view arena1, string8_from_u32 temp_buffer arena v = some (view, arena1) ∧
            view.length = length ∧ view.length ≤ 16) := by
  have hle : (decimal_digits (v + 1) v).length ≤ 10 :=
    decimal_digits_length_le (v + 1) v 9 (by omega)
  have hpos := decimal_digits_length_pos v v
  have hdig := string8_from_u32_digits_spec (v + 1) temp_buffer v 0 htb (by omega) (by omega)
  simp only [Nat.zero_add] at hdig
  have herase := string8_from_u32_digits_traced_erase (v + 1) temp_buffer v 0
  rw [hdig] at herase
  cases htr : string8_from_u32_digits_traced (v + 1) temp_buffer v 0 with
  | none => rw [htr] at herase; simp at herase
  | some r =>
    obtain ⟨tb1, len, ws⟩ := r
    rw [htr] at herase
    simp only [Option.map_some', Option.some.injEq, Prod.mk.injEq] at herase
    obtain ⟨htb1, hlen⟩ := herase
    have hcount := string8_from_u32_digits_traced_count _ _ _ _ _ htr
    simp only at hcount
    have hidx := string8_from_u32_digits_traced_indices _ _ _ _ _ htr (by simp only; omega)
    simp only [Nat.add_zero, Nat.zero_add] at hidx
    have htb1len : tb1.length = 32 := by
      rw [htb1]
      simp only [List.length_append, List.length_take, List.length_drop, htb]
      omega
    have hcopy := string8_from_u32_copy_spec tb1 len htb1len (by omega) 16 0 buffer hbuf
      (by omega)
    have hcerase := string8_from_u32_copy_traced_erase tb1 len 16 0 buffer
    rw [hcopy] at hcerase
    cases hct : string8_from_u32_copy_traced tb1 len 16 0 buffer with
    | none => rw [hct] at hcerase; simp at hcerase
    | some rc =>
      obtain ⟨b1, acc⟩ := rc
      rw [hct] at hcerase
      simp only [Option.map_some', Option.some.injEq] at hcerase
      have hacc := string8_from_u32_copy_traced_accesses tb1 len 16 0 buffer _ hct
      simp only [hbuf] at hacc
      refine ⟨tb1, len, ws, b1, acc, rfl, ?_, by omega, by omega, by omega, ?_, hct, ?_,
        hacc.1, hacc.2, ?_⟩
      · rw [hdig, htb1, hlen]
      · intro index hmem
        have := hidx index hmem
        omega
      · rw [hcopy, hcerase]
      · intro arena hroom
        refine ⟨_, _, string8_from_u32_spec temp_buffer arena v htb hv hroom, ?_, ?_⟩
        · exact hlen.symm
        · simp only
          omega

/-- Witness for `string8_from_u32_in_bounds`: the largest `u32` value, a stack
array full of the byte 7 and a zeroed buffer. -/
theorem string8_from_u32_in_bounds_witness :
    ∃ (temp_buffer1 : List Nat) (length : Nat) (writes : List Nat) (buffer1 : List Nat)
      (accesses : List (Nat × Nat)),
      string8_from_u32_digits_traced (4294967295 + 1) (List.replicate 32 7) 4294967295 0 =
          some (temp_buffer1, length, writes) ∧
        string8_from_u32_digits (4294967295 + 1) (List.replicate 32 7) 4294967295 0 =
          some (temp_buffer1, length) ∧
        writes.length = length ∧ 1 ≤ length ∧ length ≤ 10 ∧
        (∀ index ∈ writes, 6 ≤ index ∧ index ≤ 15) ∧
        string8_from_u32_copy_traced temp_buffer1 length 16 0 (List.replicate 16 0) =
          some (buffer1, accesses) ∧
        string8_from_u32_copy temp_buffer1 length 16 0 (List.replicate 16 0) = some buffer1 ∧
        accesses.length = 16 ∧
        (∀ a ∈ accesses, a.1 < 32 ∧ a.2 < 16) ∧
        (∀ arena : memory_arena, (arena.offset + 16) % 2 ^ 64 < arena.capacity →
          ∃ view arena1,
            string8_from_u32 (List.replicate 32 7) arena 4294967295 = some (view, arena1) ∧
            view.length = length ∧ view.length ≤ 16) :=
  string8_from_u32_in_bounds (List.replicate 32 7) (List.replicate 16 0) 4294967295
    (by decide) (by decide) (by decide)

end BasicFileServer
